import Mathlib

/-!
Verification of the pepper editor core against its specification.

The Rust sources are shallowly embedded: text is modelled as lists of bytes
(`Nat`, with `10` the newline byte), buffers as nonempty lists of lines,
machine integers as `Nat` with explicit bounds where overflow matters, and
fallible code via `Option`/`Except`.  Types whose defining module is not part
of the provided sources (`BufferPosition`, `History`, the serialization
primitives, the `Key` declaration) are modelled from the specification text
and marked as such in their doc comments.
-/

namespace Pepper

/-- Modelled from the spec: `BufferPosition` (buffer_position.rs is not among
the provided sources).  A position is `(line_index: u32, column_byte_index: u32)`
ordered lexicographically; columns are byte offsets. -/
structure BufferPosition where
  lineIndex : Nat
  columnByteIndex : Nat
  deriving DecidableEq, Repr

namespace BufferPosition

def zero : BufferPosition := ⟨0, 0⟩

/-- Lexicographic order on positions, as the spec prescribes. -/
def le (a b : BufferPosition) : Prop :=
  a.lineIndex < b.lineIndex ∨ (a.lineIndex = b.lineIndex ∧ a.columnByteIndex ≤ b.columnByteIndex)

def lt (a b : BufferPosition) : Prop :=
  a.lineIndex < b.lineIndex ∨ (a.lineIndex = b.lineIndex ∧ a.columnByteIndex < b.columnByteIndex)

instance (a b : BufferPosition) : Decidable (le a b) :=
  inferInstanceAs (Decidable (_ ∨ _))
instance (a b : BufferPosition) : Decidable (lt a b) :=
  inferInstanceAs (Decidable (_ ∨ _))

def minPos (a b : BufferPosition) : BufferPosition := if le a b then a else b
def maxPos (a b : BufferPosition) : BufferPosition := if le a b then b else a

end BufferPosition

/-- Modelled from the spec: `BufferRange { from: Position, to: Position }` with
invariant `from ≤ to` (field `from` is a Lean keyword, hence `fromPos`/`toPos`). -/
structure BufferRange where
  fromPos : BufferPosition
  toPos : BufferPosition
  deriving DecidableEq, Repr

/-- Modelled from the spec: `BufferRange::between` returns the min/max pair. -/
def BufferRange.between (a b : BufferPosition) : BufferRange :=
  ⟨BufferPosition.minPos a b, BufferPosition.maxPos a b⟩

/-- Source: cursor.rs `Cursor { anchor, position }`. -/
structure Cursor where
  anchor : BufferPosition
  position : BufferPosition
  deriving DecidableEq, Repr

/-- Source: cursor.rs `Cursor::zero`. -/
def Cursor.zero : Cursor := ⟨BufferPosition.zero, BufferPosition.zero⟩

/-- Source: cursor.rs `Cursor::to_range`. -/
def Cursor.toRange (c : Cursor) : BufferRange := BufferRange.between c.anchor c.position

/-- Source: cursor.rs `CursorCollection`.  The Rust struct is a fixed array of
255 cursors plus a `len: u8`; only `cursors[..len]` is ever observable, so the
live prefix is modelled as a list (`len` is its length).  The saved display
distances are not involved in any claim and are omitted. -/
structure CursorCollection where
  cursors : List Cursor
  mainCursorIndex : Nat
  deriving DecidableEq, Repr

namespace CursorCollection

/-- Source: cursor.rs `CursorCollection::capacity` (`u8::MAX`). -/
def capacity : Nat := 255

/-- Source: cursor.rs `CursorCollection::new`. -/
def new : CursorCollection := ⟨[Cursor.zero], 0⟩

/-- Sort of the live prefix by `c.to_range().from`.  Rust uses
`sort_unstable_by_key`; an insertion sort by the same key realises one
permitted result (the claims evaluate it only on inputs with distinct keys,
where every comparison sort agrees). -/
def insertByFrom (c : Cursor) : List Cursor → List Cursor
  | [] => [c]
  | x :: xs =>
    if BufferPosition.le c.toRange.fromPos x.toRange.fromPos then c :: x :: xs
    else x :: insertByFrom c xs

def sortByFrom : List Cursor → List Cursor
  | [] => []
  | x :: xs => insertByFrom x (sortByFrom xs)

/-- Rust `slice::binary_search_by_key` exactly as implemented in std (the
collection is searched by each cursor's `position`, which need not be sorted,
so the algorithm must be mirrored step for step): `left = 0`, `right = len`,
`mid = left + (right - left) / 2`, returning `Ok(mid)` on equality. -/
def binSearchLoop (cs : List Cursor) (target : BufferPosition) :
    Nat → Nat → Nat → Option Nat
  | 0, _, _ => none
  | fuel + 1, left, right =>
    if left < right then
      let mid := left + (right - left) / 2
      let p := (cs.getD mid Cursor.zero).position
      if BufferPosition.lt p target then binSearchLoop cs target fuel (mid + 1) right
      else if BufferPosition.lt target p then binSearchLoop cs target fuel left mid
      else some mid
    else none

/-- The interval `right - left` starts at `len` and strictly shrinks each
iteration, so `len + 1` fuel never runs out. -/
def binSearchByPosition (cs : List Cursor) (target : BufferPosition) : Option Nat :=
  binSearchLoop cs target (cs.length + 1) 0 cs.length

/-- Source: cursor.rs `sort_and_merge`, inner `for j in ((i + 1)..self.len).rev()`
loop.  `j` descends from the length (at entry of iteration `i`) minus one down
to `i + 1`; a merged cursor `j` is removed (`copy_within` + `len -= 1`, i.e.
`eraseIdx j`), the running `range` grows, and `main_cursor_index` shifts down
when `j ≤ main_cursor_index`. -/
def mergeInner (cs : List Cursor) (mainIdx : Nat) (range : BufferRange) (i : Nat) :
    Nat → List Cursor × Nat × BufferRange
  | 0 => (cs, mainIdx, range)
  | j + 1 =>
    if j + 1 ≤ i then (cs, mainIdx, range)
    else
      let other := (cs.getD (j + 1) Cursor.zero).toRange
      if BufferPosition.le range.fromPos other.fromPos ∧
          BufferPosition.le other.fromPos range.toPos then
        let range := { range with toPos := BufferPosition.maxPos range.toPos other.toPos }
        let cs := cs.eraseIdx (j + 1)
        let mainIdx := if j + 1 ≤ mainIdx then mainIdx - 1 else mainIdx
        mergeInner cs mainIdx range i j
      else
        mergeInner cs mainIdx range i j

/-- Source: cursor.rs `sort_and_merge`, outer `while i < self.len` loop.  Each
step runs the inner merge scan and then rewrites cursor `i` to the merged range
with its original orientation.  `i` increases by one per step and the length
never grows, so a fuel of the initial length always suffices. -/
def mergeOuter (cs : List Cursor) (mainIdx i : Nat) : Nat → List Cursor × Nat
  | 0 => (cs, mainIdx)
  | fuel + 1 =>
    if i < cs.length then
      let range := (cs.getD i Cursor.zero).toRange
      let (cs, mainIdx, range) := mergeInner cs mainIdx range i (cs.length - 1)
      let c := cs.getD i Cursor.zero
      let c :=
        if BufferPosition.le c.anchor c.position then
          Cursor.mk range.fromPos range.toPos
        else
          Cursor.mk range.toPos range.fromPos
      mergeOuter (cs.set i c) mainIdx (i + 1) fuel
    else (cs, mainIdx)

/-- Source: cursor.rs `CursorCollection::sort_and_merge`. -/
def sortAndMerge (col : CursorCollection) : CursorCollection :=
  let mainCursor := col.cursors.getD col.mainCursorIndex Cursor.zero
  let sorted := sortByFrom col.cursors
  let mainIdx := (binSearchByPosition sorted mainCursor.position).getD 0
  let (cs, m) := mergeOuter sorted mainIdx 0 sorted.length
  ⟨cs, m⟩

end CursorCollection

/-- Source: cursor.rs `CursorCollectionMutGuard::clear` (`len = 0`; the stored
array and `main_cursor_index` are untouched, but the live prefix empties). -/
def guardClear (col : CursorCollection) : CursorCollection :=
  { col with cursors := [] }

/-- Source: cursor.rs `CursorCollectionMutGuard::add`: `len.checked_add(1)` is
`None` exactly when `len` is `u8::MAX = capacity`, making a full collection a
silent no-op; otherwise the cursor is written at index `len`,
`main_cursor_index` is set to it, and `len` increments. -/
def guardAdd (col : CursorCollection) (c : Cursor) : CursorCollection :=
  if col.cursors.length = CursorCollection.capacity then col
  else ⟨col.cursors ++ [c], col.cursors.length⟩

/-- Source: cursor.rs `impl Drop for CursorCollectionMutGuard`: reinstate a
single zero cursor when the guard left the collection empty, then
`sort_and_merge` (display-distance clearing is omitted as no claim uses it). -/
def guardDrop (col : CursorCollection) : CursorCollection :=
  let col :=
    if col.cursors.length = 0 then CursorCollection.mk [Cursor.zero] 0 else col
  CursorCollection.sortAndMerge col

/-- Two (normalized) ranges overlap or touch when each starts no later than the
other ends. -/
def rangesTouchOrOverlap (a b : BufferRange) : Prop :=
  BufferPosition.le a.fromPos b.toPos ∧ BufferPosition.le b.fromPos a.toPos

instance (a b : BufferRange) : Decidable (rangesTouchOrOverlap a b) :=
  inferInstanceAs (Decidable (_ ∧ _))

/-! ## Buffer content (buffer.rs)

Text is modelled at byte granularity: a line is a list of bytes with the
newline byte `10` excluded by invariant, a `BufferContent` is the list of
lines.  Byte-level modelling is exact for the claims at hand (`\n` never
occurs inside a multi-byte utf-8 character). -/

abbrev Byte := Nat

/-- The newline byte. -/
def nl : Byte := 10

/-- The carriage-return byte. -/
def cr : Byte := 13

abbrev Line := List Byte

abbrev BufferContent := List Line

/-- Rust `str::split_inclusive('\n')` at byte level: chunks each end with the
newline byte except possibly the last, empty input gives no chunks. -/
def splitInclusiveNl : List Byte → List (List Byte)
  | [] => []
  | b :: rest =>
    if b = nl then [b] :: splitInclusiveNl rest
    else
      match splitInclusiveNl rest with
      | [] => [[b]]
      | chunk :: chunks => (b :: chunk) :: chunks

/-- Rust `str::lines`'s per-chunk map: strip one trailing `\n`; only when that
stripped, also strip one trailing `\r`. -/
def linesMapStrip (chunk : List Byte) : List Byte :=
  if chunk.getLast? = some nl then
    let chunk := chunk.dropLast
    if chunk.getLast? = some cr then chunk.dropLast else chunk
  else chunk

/-- Rust `str::lines()` at byte level (used by `BufferContent::insert_text`). -/
def rustLines (t : List Byte) : List (List Byte) :=
  (splitInclusiveNl t).map linesMapStrip

/-- Source: buffer.rs `BufferContent::new` — a single empty line. -/
def contentNew : BufferContent := [[]]

/-- Source: buffer.rs `BufferContent::write`: `writeln!` every line (each line
followed by one newline byte). -/
def contentWrite (c : BufferContent) : List Byte :=
  (c.map (fun l => l ++ [nl])).flatten

/-- Source: buffer.rs `BufferContent::saturate_position`. -/
def saturatePosition (c : BufferContent) (p : BufferPosition) : BufferPosition :=
  let li := min p.lineIndex (c.length - 1)
  let line := c.getD li []
  ⟨li, min p.columnByteIndex line.length⟩

/-- Source: buffer.rs `BufferLine::insert_text` (`String::insert_str` at a byte
index). -/
def lineInsert (l : Line) (idx : Nat) (t : List Byte) : Line :=
  l.take idx ++ t ++ l.drop idx

/-- Source: buffer.rs `BufferContent::insert_text`.  Out-of-range positions
panic in Rust (string indexing); the claims only apply it to saturated
positions, where `getD`/`set` coincide with the panicking accesses. -/
def contentInsertText (c : BufferContent) (p : BufferPosition) (text : List Byte) :
    BufferContent × BufferRange :=
  if ¬ text.contains nl then
    let line := c.getD p.lineIndex []
    let endPos := BufferPosition.mk p.lineIndex (p.columnByteIndex + text.length)
    (c.set p.lineIndex (lineInsert line p.columnByteIndex text),
      BufferRange.between p endPos)
  else
    let line := c.getD p.lineIndex []
    let head := line.take p.columnByteIndex
    let splitLine := line.drop p.columnByteIndex
    let ps := rustLines text
    let firstLine := head ++ ps.headD []
    let middles := ps.tail
    if text.getLast? = some nl then
      let c := c.take p.lineIndex ++ (firstLine :: middles ++ [splitLine])
        ++ c.drop (p.lineIndex + 1)
      (c, BufferRange.between p ⟨p.lineIndex + middles.length + 1, 0⟩)
    else
      let inserted := firstLine :: middles
      let lastLine := inserted.getLastD []
      let c := c.take p.lineIndex ++ (inserted.dropLast ++ [lastLine ++ splitLine])
        ++ c.drop (p.lineIndex + 1)
      (c, BufferRange.between p ⟨p.lineIndex + middles.length, lastLine.length⟩)

/-- Source: buffer.rs `BufferContent::delete_range`. -/
def contentDeleteRange (c : BufferContent) (r : BufferRange) : BufferContent :=
  let f := r.fromPos
  let t := r.toPos
  if f.lineIndex = t.lineIndex then
    let line := c.getD f.lineIndex []
    c.set f.lineIndex (line.take f.columnByteIndex ++ line.drop t.columnByteIndex)
  else
    let c := c.set f.lineIndex ((c.getD f.lineIndex []).take f.columnByteIndex)
    let c :=
      if f.lineIndex + 1 < t.lineIndex then
        c.take (f.lineIndex + 1) ++ c.drop t.lineIndex
      else c
    if f.lineIndex + 1 < c.length then
      let toLine := c.getD (f.lineIndex + 1) []
      let c := c.eraseIdx (f.lineIndex + 1)
      c.set f.lineIndex ((c.getD f.lineIndex []) ++ toLine.drop t.columnByteIndex)
    else c

/-- Source: buffer.rs `BufferContent::clear` — back to a single empty line. -/
def contentClear (_ : BufferContent) : BufferContent := [[]]

/-- Rust `BufRead::read_line` chunking plus buffer.rs `read`'s per-line strip:
one trailing `\n` and then one trailing `\r` are removed (both
unconditionally, unlike `str::lines`). -/
def readStrip (chunk : List Byte) : List Byte :=
  let chunk := if chunk.getLast? = some nl then chunk.dropLast else chunk
  if chunk.getLast? = some cr then chunk.dropLast else chunk

/-- Source: buffer.rs `BufferContent::read`: split the input at newlines,
strip `\r?\n`, guarantee at least one line, then drop a UTF-8 BOM from the
first line. -/
def contentRead (input : List Byte) : BufferContent :=
  let ls := (splitInclusiveNl input).map readStrip
  let ls := if ls.isEmpty then [([] : Line)] else ls
  match ls with
  | [] => [[]]
  | l0 :: rest => (if l0.take 3 = [239, 187, 191] then l0.drop 3 else l0) :: rest

/-- The `BufferContent` invariants of the spec: at least one line, and no line
contains the newline byte. -/
def contentWf (c : BufferContent) : Prop :=
  c ≠ [] ∧ ∀ l ∈ c, nl ∉ l

instance (c : BufferContent) : Decidable (contentWf c) :=
  inferInstanceAs (Decidable (_ ∧ _))

/-! ## History (spec §4.3) and Buffer (buffer.rs) -/

/-- Source: history `EditKind` (declared in history.rs, used throughout
buffer.rs). -/
inductive EditKind
  | insert
  | delete
  deriving DecidableEq, Repr

/-- Source: `Edit { kind, range, text }`; the text arena borrow is modelled by
storing the bytes directly. -/
structure Edit where
  kind : EditKind
  range : BufferRange
  text : List Byte
  deriving DecidableEq, Repr

def EditKind.invert : EditKind → EditKind
  | .insert => .delete
  | .delete => .insert

def invertEdit (e : Edit) : Edit := { e with kind := e.kind.invert }

/-- Modelled from the spec: `History` (§4.3; history.rs is not among the
provided sources).  Committed undo groups oldest-first, the open group, and
the redo ("future") stack, most recently undone group first. -/
structure History where
  groups : List (List Edit)
  currentGroup : List Edit
  future : List (List Edit)
  deriving DecidableEq, Repr

namespace History

def new : History := ⟨[], [], []⟩

/-- Modelled from the spec: `add_edit` appends to the open commit group; a new
edit after an undo clears the future stack. -/
def addEdit (h : History) (e : Edit) : History :=
  { h with currentGroup := h.currentGroup ++ [e], future := [] }

/-- Modelled from the spec: `commit_edits` closes the current group; no-op if
the current group is empty. -/
def commitEdits (h : History) : History :=
  if h.currentGroup = [] then h
  else { groups := h.groups ++ [h.currentGroup], currentGroup := [], future := [] }

/-- Modelled from the spec: `undo` yields the edits of the most recently
committed (or open) group in reverse and moves that group to the future stack.
The spec's Insert↔Delete action inversion of the undo path is performed at
yield time, so that the caller (`Buffer::apply_history_edits`, which applies
yielded kinds directly) restores the prior state. -/
def undoEdits (h : History) : History × List Edit :=
  if h.currentGroup ≠ [] then
    (⟨h.groups, [], h.currentGroup :: h.future⟩,
      h.currentGroup.reverse.map invertEdit)
  else
    match h.groups.getLast? with
    | none => (h, [])
    | some g => (⟨h.groups.dropLast, [], g :: h.future⟩, g.reverse.map invertEdit)

/-- Modelled from the spec: `redo` pops the most recently undone group from the
future stack and re-applies it forward (with the originally recorded kinds). -/
def redoEdits (h : History) : History × List Edit :=
  match h.future with
  | [] => (h, [])
  | g :: rest => (⟨h.groups ++ [g], [], rest⟩, g)

end History

/-- Editor events a single buffer enqueues (events.rs `EditorEvent`,
specialised to the one-buffer setting of the claims; the buffer handle field
is therefore omitted). -/
inductive BufEvent
  | insertText (range : BufferRange) (text : List Byte)
  | deleteText (range : BufferRange)
  deriving DecidableEq, Repr

/-- Source: buffer.rs `Buffer`, restricted to the fields the claims observe.
The syntax highlighter and the word database are external collaborators
(the claims do not mention them) and `alive`/`path`/`handle` never change
under the modelled operations, so they are omitted. -/
structure Buffer where
  content : BufferContent
  history : History
  searchRanges : List BufferRange
  needsSave : Bool
  hasHistory : Bool
  deriving DecidableEq, Repr

/-- Source: buffer.rs `Buffer::insert_text` (lines 808-843): clear the search
ranges, saturate the position, return an empty range on empty text, otherwise
mark dirty, splice the content, enqueue `BufferInsertText` and record the edit
when `has_history`. -/
def bufferInsertText (b : Buffer) (position : BufferPosition) (text : List Byte)
    (events : List BufEvent) : Buffer × List BufEvent × BufferRange :=
  let b := { b with searchRanges := [] }
  let position := saturatePosition b.content position
  if text = [] then (b, events, BufferRange.between position position)
  else
    let b := { b with needsSave := true }
    let (content, range) := contentInsertText b.content position text
    let events := events ++ [BufEvent.insertText range text]
    let history :=
      if b.hasHistory then b.history.addEdit ⟨.insert, range, text⟩ else b.history
    ({ b with content := content, history := history }, events, range)

/-- Source: buffer.rs `Buffer::delete_range`, inner `add_history_delete_line`:
the two edits recorded for deleting line `fl` from column `fc` through the
following line break. -/
def deleteLineEdits (c : BufferContent) (fl fc : Nat) : List Edit :=
  let line := c.getD fl []
  [ ⟨.delete, BufferRange.between ⟨fl, line.length⟩ ⟨fl + 1, 0⟩, [nl]⟩,
    ⟨.delete, BufferRange.between ⟨fl, fc⟩ ⟨fl, line.length⟩, line.drop fc⟩ ]

/-- Source: buffer.rs `Buffer::delete_range`, the
`for line_index in ((from.line_index + 1)..to.line_index).rev()` loop: with
`k` middle lines the indices `fl + k, …, fl + 1` descend. -/
def middleDeleteEdits (c : BufferContent) (fl : Nat) : Nat → List Edit
  | 0 => []
  | k + 1 => deleteLineEdits c (fl + k + 1) 0 ++ middleDeleteEdits c fl k

/-- Source: buffer.rs `Buffer::delete_range` history recording (lines
903-943), against the content as it is before the deletion. -/
def deleteEdits (c : BufferContent) (r : BufferRange) : List Edit :=
  let f := r.fromPos
  let t := r.toPos
  if f.lineIndex = t.lineIndex then
    [⟨.delete, r, ((c.getD f.lineIndex []).take t.columnByteIndex).drop f.columnByteIndex⟩]
  else
    ⟨.delete, BufferRange.between ⟨t.lineIndex, 0⟩ t, (c.getD t.lineIndex []).take t.columnByteIndex⟩
      :: (middleDeleteEdits c f.lineIndex (t.lineIndex - f.lineIndex - 1)
        ++ deleteLineEdits c f.lineIndex f.columnByteIndex)

/-- Source: buffer.rs `Buffer::delete_range` (lines 880-952): clear search
ranges, saturate both endpoints, no-op on an empty range, otherwise mark
dirty, enqueue `BufferDeleteText`, record the decomposed edits when
`has_history`, and splice the content. -/
def bufferDeleteRange (b : Buffer) (range : BufferRange) (events : List BufEvent) :
    Buffer × List BufEvent :=
  let b := { b with searchRanges := [] }
  let range := BufferRange.mk (saturatePosition b.content range.fromPos)
    (saturatePosition b.content range.toPos)
  if range.fromPos = range.toPos then (b, events)
  else
    let b := { b with needsSave := true }
    let events := events ++ [BufEvent.deleteText range]
    let history :=
      if b.hasHistory then (deleteEdits b.content range).foldl History.addEdit b.history
      else b.history
    ({ b with content := contentDeleteRange b.content range, history := history }, events)

/-- Source: buffer.rs `Buffer::commit_edits`. -/
def bufferCommitEdits (b : Buffer) : Buffer :=
  { b with history := b.history.commitEdits }

/-- Source: buffer.rs `Buffer::apply_history_edits` loop body: yielded kinds
are applied directly (`Insert` inserts the text at `range.from`, `Delete`
removes `range`). -/
def applyEdit (c : BufferContent) (e : Edit) : BufferContent :=
  match e.kind with
  | .insert => (contentInsertText c e.range.fromPos e.text).1
  | .delete => contentDeleteRange c e.range

def editToEvent (e : Edit) : BufEvent :=
  match e.kind with
  | .insert => .insertText e.range e.text
  | .delete => .deleteText e.range

/-- Source: buffer.rs `Buffer::undo` via `apply_history_edits`. -/
def bufferUndo (b : Buffer) (events : List BufEvent) : Buffer × List BufEvent :=
  let b := { b with searchRanges := [], needsSave := true }
  let (history, edits) := b.history.undoEdits
  ({ b with content := edits.foldl applyEdit b.content, history := history },
    events ++ edits.map editToEvent)

/-- Source: buffer.rs `Buffer::redo` via `apply_history_edits`. -/
def bufferRedo (b : Buffer) (events : List BufEvent) : Buffer × List BufEvent :=
  let b := { b with searchRanges := [], needsSave := true }
  let (history, edits) := b.history.redoEdits
  ({ b with content := edits.foldl applyEdit b.content, history := history },
    events ++ edits.map editToEvent)

/-- An edit-session step for claim C3: one `Buffer::insert_text` or
`Buffer::delete_range` call. -/
inductive BufOp
  | ins (p : BufferPosition) (t : List Byte)
  | del (r : BufferRange)
  deriving DecidableEq, Repr

def applyOp (b : Buffer) : BufOp → Buffer
  | .ins p t => (bufferInsertText b p t []).1
  | .del r => (bufferDeleteRange b r []).1

/-- Ranges whose saturated endpoints come out inverted (possible when both
lines clamp to the last line) make Rust's `delete_range` panic on the string
slice; such calls never return and are excluded from the round-trip claim. -/
def validOps (b : Buffer) : List BufOp → Prop
  | [] => True
  | .ins p t :: rest => validOps (applyOp b (.ins p t)) rest
  | .del r :: rest =>
    BufferPosition.le (saturatePosition b.content r.fromPos)
        (saturatePosition b.content r.toPos)
      ∧ validOps (applyOp b (.del r)) rest

/-- Decision procedure for `validOps`, by the same recursion. -/
instance instDecidableValidOps : (b : Buffer) → (ops : List BufOp) →
    Decidable (validOps b ops)
  | _, [] => inferInstanceAs (Decidable True)
  | b, .ins p t :: rest => instDecidableValidOps (applyOp b (.ins p t)) rest
  | b, .del r :: rest =>
    have : Decidable (validOps (applyOp b (.del r)) rest) :=
      instDecidableValidOps (applyOp b (.del r)) rest
    inferInstanceAs (Decidable (_ ∧ _))

/-! ## Keys (events.rs `parse_key` / `impl fmt::Display for Key`)

The `Key` declaration lives in platform.rs, which is not among the provided
sources; its variant set and payloads are read off events.rs (`parse_key`,
`Display`, `serialize_key` — the `F` payload is a `u8`, chars are full
`char`s).  Characters are modelled as their Unicode codepoints. -/

inductive Key
  | none
  | backspace
  | enter
  | left
  | right
  | up
  | down
  | home
  | endKey
  | pageUp
  | pageDown
  | tab
  | delete
  | f (n : Nat)
  | char (c : Nat)
  | ctrl (c : Nat)
  | alt (c : Nat)
  | esc
  deriving DecidableEq, Repr

/-- Codepoint of a character. -/
def ch (c : Char) : Nat := c.toNat

/-- Codepoints of a string literal. -/
def s2b (s : String) : List Nat := s.toList.map Char.toNat

/-- Decimal rendering of a `u8` as Rust's `write!("{}", n)` produces it
(no padding, most significant digit first; `u8` has at most three digits). -/
def natDecimal (n : Nat) : List Nat :=
  if n < 10 then [48 + n]
  else if n < 100 then [48 + n / 10, 48 + n % 10]
  else [48 + n / 100, 48 + n / 10 % 10, 48 + n % 10]

/-- Source: events.rs `impl fmt::Display for Key`. -/
def keyFormat : Key → List Nat
  | .none => []
  | .backspace => s2b "<backspace>"
  | .enter => s2b "<enter>"
  | .left => s2b "<left>"
  | .right => s2b "<right>"
  | .up => s2b "<up>"
  | .down => s2b "<down>"
  | .home => s2b "<home>"
  | .endKey => s2b "<end>"
  | .pageUp => s2b "<pageup>"
  | .pageDown => s2b "<pagedown>"
  | .tab => s2b "<tab>"
  | .delete => s2b "<delete>"
  | .f n => s2b "<f" ++ natDecimal n ++ s2b ">"
  | .char c =>
    if c = ch ' ' then s2b "<space>"
    else if c = ch '<' then s2b "<less>"
    else if c = ch '>' then s2b "<greater>"
    else [c]
  | .ctrl c => s2b "<c-" ++ [c] ++ s2b ">"
  | .alt c => s2b "<a-" ++ [c] ++ s2b ">"
  | .esc => s2b "<esc>"

instance {ε α : Type _} [DecidableEq ε] [DecidableEq α] : DecidableEq (Except ε α) :=
  fun x y =>
    match x, y with
    | .ok a, .ok b => decidable_of_iff (a = b) (by simp)
    | .error a, .error b => decidable_of_iff (a = b) (by simp)
    | .ok _, .error _ => isFalse (by simp)
    | .error _, .ok _ => isFalse (by simp)

/-- Source: events.rs `KeyParseError`. -/
inductive KeyParseError
  | unexpectedEnd
  | invalidCharacter (c : Nat)
  deriving DecidableEq, Repr

/-- Source: events.rs `parse_key`'s inner `next`. -/
def nextChar (l : List Nat) : Except KeyParseError (Nat × List Nat) :=
  match l with
  | [] => .error .unexpectedEnd
  | c :: rest => .ok (c, rest)

/-- Source: events.rs `parse_key`'s inner `consume`. -/
def consumeChar (l : List Nat) (c : Nat) : Except KeyParseError (List Nat) :=
  match l with
  | [] => .error .unexpectedEnd
  | x :: rest => if c = x then .ok rest else .error (.invalidCharacter x)

/-- Source: events.rs `parse_key`'s inner `consume_str`. -/
def consumeStr (l : List Nat) : List Nat → Except KeyParseError (List Nat)
  | [] => .ok l
  | c :: cs => do consumeStr (← consumeChar l c) cs

/-- Rust `char::to_digit(10)`. -/
def toDigit10 (c : Nat) : Option Nat :=
  if 48 ≤ c ∧ c ≤ 57 then some (c - 48) else Option.none

/-- Rust `char::is_ascii_alphanumeric`. -/
def isAsciiAlphanumeric (c : Nat) : Prop :=
  (48 ≤ c ∧ c ≤ 57) ∨ (65 ≤ c ∧ c ≤ 90) ∨ (97 ≤ c ∧ c ≤ 122)

instance (c : Nat) : Decidable (isAsciiAlphanumeric c) :=
  inferInstanceAs (Decidable (_ ∨ _))

/-- Source: events.rs `parse_key` (lines 189-345), on the remaining character
stream; returns the parsed key and the rest of the stream. -/
def parseKey (l : List Nat) : Except KeyParseError (Key × List Nat) := do
  let (c, l) ← nextChar l
  if c = ch '<' then
    let (c2, l) ← nextChar l
    if c2 = ch 'b' then do
      let l ← consumeStr l (s2b "ackspace>")
      return (.backspace, l)
    else if c2 = ch 's' then do
      let l ← consumeStr l (s2b "pace>")
      return (.char (ch ' '), l)
    else if c2 = ch 'e' then do
      let (c3, l) ← nextChar l
      if c3 = ch 'n' then do
        let (c4, l) ← nextChar l
        if c4 = ch 't' then do
          let l ← consumeStr l (s2b "er>")
          return (.enter, l)
        else if c4 = ch 'd' then do
          let l ← consumeChar l (ch '>')
          return (.endKey, l)
        else throw (.invalidCharacter c4)
      else if c3 = ch 's' then do
        let l ← consumeStr l (s2b "c>")
        return (.esc, l)
      else throw (.invalidCharacter c3)
    else if c2 = ch 'l' then do
      let l ← consumeChar l (ch 'e')
      let (c3, l) ← nextChar l
      if c3 = ch 's' then do
        let l ← consumeStr l (s2b "s>")
        return (.char (ch '<'), l)
      else if c3 = ch 'f' then do
        let l ← consumeStr l (s2b "t>")
        return (.left, l)
      else throw (.invalidCharacter c3)
    else if c2 = ch 'g' then do
      let l ← consumeStr l (s2b "reater>")
      return (.char (ch '>'), l)
    else if c2 = ch 'r' then do
      let l ← consumeStr l (s2b "ight>")
      return (.right, l)
    else if c2 = ch 'u' then do
      let l ← consumeStr l (s2b "p>")
      return (.up, l)
    else if c2 = ch 'd' then do
      let (c3, l) ← nextChar l
      if c3 = ch 'o' then do
        let l ← consumeStr l (s2b "wn>")
        return (.down, l)
      else if c3 = ch 'e' then do
        let l ← consumeStr l (s2b "lete>")
        return (.delete, l)
      else throw (.invalidCharacter c3)
    else if c2 = ch 'h' then do
      let l ← consumeStr l (s2b "ome>")
      return (.home, l)
    else if c2 = ch 'p' then do
      let l ← consumeStr l (s2b "age")
      let (c3, l) ← nextChar l
      if c3 = ch 'u' then do
        let l ← consumeStr l (s2b "p>")
        return (.pageUp, l)
      else if c3 = ch 'd' then do
        let l ← consumeStr l (s2b "own>")
        return (.pageDown, l)
      else throw (.invalidCharacter c3)
    else if c2 = ch 't' then do
      let l ← consumeStr l (s2b "ab>")
      return (.tab, l)
    else if c2 = ch 'f' then do
      let (c3, l) ← nextChar l
      match toDigit10 c3 with
      | some d0 => do
        let (c4, l) ← nextChar l
        match toDigit10 c4 with
        | some d1 => do
          let l ← consumeChar l (ch '>')
          return (.f (d0 * 10 + d1), l)
        | Option.none =>
          if c4 = ch '>' then return (.f d0, l)
          else throw (.invalidCharacter c4)
      | Option.none => throw (.invalidCharacter c3)
    else if c2 = ch 'c' then do
      let l ← consumeChar l (ch '-')
      let (c3, l) ← nextChar l
      if isAsciiAlphanumeric c3 then do
        let l ← consumeChar l (ch '>')
        return (.ctrl c3, l)
      else throw (.invalidCharacter c3)
    else if c2 = ch 'a' then do
      let l ← consumeChar l (ch '-')
      let (c3, l) ← nextChar l
      if isAsciiAlphanumeric c3 then do
        let l ← consumeChar l (ch '>')
        return (.alt c3, l)
      else throw (.invalidCharacter c3)
    else throw (.invalidCharacter c2)
  else if c = ch '>' then throw (.invalidCharacter (ch '>'))
  else return (.char c, l)

/-! ## Wire protocol (events.rs; primitives of §4.7)

The serialization primitives live in serialization.rs, which is not among the
provided sources; they are modelled from the spec: little-endian, `u8`/`u16`/
`u32`/`char`-as-`u32` at native width, strings and byte slices length-prefixed
by `u32`, tagged unions prefixed by a `u8` discriminant, and a deserializer
that fails with an end-of-input error on truncated data and an invalid-data
error otherwise. -/

/-- Modelled from the spec: deserialize errors — `UnexpectedEof` for truncated
input (the pending tail is retained), `InvalidData` otherwise (the name used
by events.rs). -/
inductive DeserializeError
  | insufficientData
  | invalidData
  deriving DecidableEq, Repr

def serU8 (n : Nat) : List Byte := [n % 256]

def serU16 (n : Nat) : List Byte := [n % 256, n / 256 % 256]

def serU32 (n : Nat) : List Byte :=
  [n % 256, n / 256 % 256, n / 65536 % 256, n / 16777216 % 256]

def deserU8 : List Byte → Except DeserializeError (Nat × List Byte)
  | [] => .error .insufficientData
  | b :: rest => .ok (b, rest)

def deserU16 : List Byte → Except DeserializeError (Nat × List Byte)
  | b0 :: b1 :: rest => .ok (b0 + 256 * b1, rest)
  | _ => .error .insufficientData

def deserU32 : List Byte → Except DeserializeError (Nat × List Byte)
  | b0 :: b1 :: b2 :: b3 :: rest =>
    .ok (b0 + 256 * b1 + 65536 * b2 + 16777216 * b3, rest)
  | _ => .error .insufficientData

/-- Modelled from the spec: byte slices and strings are `u32`-length-prefixed. -/
def serBytes (bs : List Byte) : List Byte := serU32 bs.length ++ bs

def deserBytes (l : List Byte) : Except DeserializeError (List Byte × List Byte) := do
  let (n, l) ← deserU32 l
  if n ≤ l.length then .ok (l.take n, l.drop n) else .error .insufficientData

/-- Source: events.rs `serialize_key` — a `u8` discriminant 0-17, `F` carries a
`u8`, the char variants a `char` as `u32`. -/
def serKey : Key → List Byte
  | .none => serU8 0
  | .backspace => serU8 1
  | .enter => serU8 2
  | .left => serU8 3
  | .right => serU8 4
  | .up => serU8 5
  | .down => serU8 6
  | .home => serU8 7
  | .endKey => serU8 8
  | .pageUp => serU8 9
  | .pageDown => serU8 10
  | .tab => serU8 11
  | .delete => serU8 12
  | .f n => serU8 13 ++ serU8 n
  | .char c => serU8 14 ++ serU32 c
  | .ctrl c => serU8 15 ++ serU32 c
  | .alt c => serU8 16 ++ serU32 c
  | .esc => serU8 17

/-- Source: events.rs `deserialize_key`. -/
def deserKey (l : List Byte) : Except DeserializeError (Key × List Byte) := do
  let (d, l) ← deserU8 l
  if d = 0 then return (.none, l)
  else if d = 1 then return (.backspace, l)
  else if d = 2 then return (.enter, l)
  else if d = 3 then return (.left, l)
  else if d = 4 then return (.right, l)
  else if d = 5 then return (.up, l)
  else if d = 6 then return (.down, l)
  else if d = 7 then return (.home, l)
  else if d = 8 then return (.endKey, l)
  else if d = 9 then return (.pageUp, l)
  else if d = 10 then return (.pageDown, l)
  else if d = 11 then return (.tab, l)
  else if d = 12 then return (.delete, l)
  else if d = 13 then do
    let (n, l) ← deserU8 l
    return (.f n, l)
  else if d = 14 then do
    let (c, l) ← deserU32 l
    return (.char c, l)
  else if d = 15 then do
    let (c, l) ← deserU32 l
    return (.ctrl c, l)
  else if d = 16 then do
    let (c, l) ← deserU32 l
    return (.alt c, l)
  else if d = 17 then return (.esc, l)
  else throw .invalidData

/-- Source: events.rs `TargetClient` (`Sender = 0`, `Focused = 1`). -/
inductive TargetClient
  | sender
  | focused
  deriving DecidableEq, Repr

def serTarget : TargetClient → List Byte
  | .sender => serU8 0
  | .focused => serU8 1

def deserTarget (l : List Byte) : Except DeserializeError (TargetClient × List Byte) := do
  let (d, l) ← deserU8 l
  if d = 0 then return (.sender, l)
  else if d = 1 then return (.focused, l)
  else throw .invalidData

/-- Source: events.rs `ClientEvent` (discriminants 0-3). -/
inductive ClientEvent
  | key (target : TargetClient) (k : Key)
  | resize (width height : Nat)
  | command (target : TargetClient) (text : List Byte)
  | stdinInput (target : TargetClient) (bytes : List Byte)
  deriving DecidableEq, Repr

/-- Source: events.rs `impl Serialize for ClientEvent`, serialize direction. -/
def serClientEvent : ClientEvent → List Byte
  | .key target k => serU8 0 ++ serTarget target ++ serKey k
  | .resize w h => serU8 1 ++ serU16 w ++ serU16 h
  | .command target text => serU8 2 ++ serTarget target ++ serBytes text
  | .stdinInput target bytes => serU8 3 ++ serTarget target ++ serBytes bytes

/-- Source: events.rs `impl Serialize for ClientEvent`, deserialize direction. -/
def deserClientEvent (l : List Byte) : Except DeserializeError (ClientEvent × List Byte) := do
  let (d, l) ← deserU8 l
  if d = 0 then do
    let (target, l) ← deserTarget l
    let (k, l) ← deserKey l
    return (.key target k, l)
  else if d = 1 then do
    let (w, l) ← deserU16 l
    let (h, l) ← deserU16 l
    return (.resize w h, l)
  else if d = 2 then do
    let (target, l) ← deserTarget l
    let (text, l) ← deserBytes l
    return (.command target text, l)
  else if d = 3 then do
    let (target, l) ← deserTarget l
    let (bytes, l) ← deserBytes l
    return (.stdinInput target bytes, l)
  else throw .invalidData

/-- Machine-width bounds under which serialization is lossless: `u8` payloads
below `2^8`, `u16` dimensions below `2^16`, chars and slice lengths below
`2^32` (Rust casts lengths with `as u32`). -/
def keyWf : Key → Prop
  | .f n => n < 256
  | .char c => c < 4294967296
  | .ctrl c => c < 4294967296
  | .alt c => c < 4294967296
  | _ => True

def eventWf : ClientEvent → Prop
  | .key _ k => keyWf k
  | .resize w h => w < 65536 ∧ h < 65536
  | .command _ text => text.length < 4294967296
  | .stdinInput _ bytes => bytes.length < 4294967296

instance (k : Key) : Decidable (keyWf k) :=
  match k with
  | .f _ => inferInstanceAs (Decidable (_ < _))
  | .char _ => inferInstanceAs (Decidable (_ < _))
  | .ctrl _ => inferInstanceAs (Decidable (_ < _))
  | .alt _ => inferInstanceAs (Decidable (_ < _))
  | .none | .backspace | .enter | .left | .right | .up | .down | .home | .endKey
  | .pageUp | .pageDown | .tab | .delete | .esc => inferInstanceAs (Decidable True)

instance (e : ClientEvent) : Decidable (eventWf e) :=
  match e with
  | .key _ k => inferInstanceAs (Decidable (keyWf k))
  | .resize _ _ => inferInstanceAs (Decidable (_ ∧ _))
  | .command _ _ => inferInstanceAs (Decidable (_ < _))
  | .stdinInput _ _ => inferInstanceAs (Decidable (_ < _))

/-- Source: events.rs `ClientEventIter::next` iterated until it returns `None`:
deserialize events greedily from the front of the buffer; the first error (of
either kind) stops iteration, leaving the unconsumed tail.  Every successful
deserialization consumes at least the discriminant byte, so `length + 1` fuel
never runs out. -/
def drainEvents : Nat → List Byte → List ClientEvent × List Byte
  | 0, buf => ([], buf)
  | fuel + 1, buf =>
    if buf.isEmpty then ([], buf)
    else
      match deserClientEvent buf with
      | .ok (e, rest) =>
        let (es, b) := drainEvents fuel rest
        (e :: es, b)
      | .error _ => ([], buf)

/-- Source: events.rs `ClientEventReceiver::receive_events` followed by
iterating the returned `ClientEventIter` to exhaustion and calling `finish`:
the chunk is appended to the per-connection buffer, events are drained from
the front, and the consumed prefix is dropped. -/
def feedChunk (buf chunk : List Byte) : List ClientEvent × List Byte :=
  let buf := buf ++ chunk
  drainEvents (buf.length + 1) buf

/-- Feeding a sequence of chunks through `receive_events`/`finish`, collecting
all yielded events and the final per-connection buffer. -/
def processChunks (chunks : List (List Byte)) : List ClientEvent × List Byte :=
  chunks.foldl
    (fun acc chunk =>
      let (es, buf) := feedChunk acc.2 chunk
      (acc.1 ++ es, buf))
    ([], [])

/-! ## Server loop idle timer (platforms/linux.rs `run_server`) -/

/-- Source: platforms/linux.rs `run_server`: the `timeout` variable only ever
holds `None`, `Some(Duration::ZERO)` or `Some(SERVER_IDLE_DURATION)` (a
nonzero quiet interval, so the `Some(Duration::ZERO)` match arm is disjoint
from it). -/
inductive LoopTimeout
  | infinite
  | zero
  | idleArmed
  deriving DecidableEq, Repr

/-- The loop state a quiet iteration observes: the wait timeout and the
redraw latch. -/
structure LoopState where
  timeout : LoopTimeout
  needRedraw : Bool
  deriving DecidableEq, Repr

/-- Source: platforms/linux.rs lines 178-193, 288-293 and 402-404, specialised
to a quiet iteration: `epoll.wait` reports no readiness and the editor's
`update` issues no platform requests.  With `Some(ZERO)` the timeout re-arms
to the idle duration; with the idle duration armed a single synthetic `Idle`
platform event is pushed and consumed by `update` (the returned flag) and the
timeout becomes infinite; with an infinite timeout the iteration never wakes. -/
def quietStep (s : LoopState) : LoopState × Bool :=
  match s.timeout with
  | .zero => (⟨.idleArmed, false⟩, false)
  | .idleArmed => (⟨.infinite, false⟩, true)
  | .infinite => (s, false)

/-- Run `n` quiet iterations, counting the synthetic `Idle` events produced. -/
def quietRun : LoopState → Nat → LoopState × Nat
  | s, 0 => (s, 0)
  | s, n + 1 =>
    let (s1, emitted) := quietStep s
    let (s2, k) := quietRun s1 n
    (s2, (if emitted then 1 else 0) + k)


/-! ## Definitions supporting the claim statements -/

/-- Boolean check that no carriage return immediately precedes a newline
byte (i.e. no `"\r\n"` occurs). -/
def noCrLfB : List Byte → Bool
  | a :: b :: rest => (!(a == cr && b == nl)) && noCrLfB (b :: rest)
  | _ => true

/-- No carriage return immediately precedes a newline byte. -/
def noCrLf (t : List Byte) : Prop := noCrLfB t = true

instance (t : List Byte) : Decidable (noCrLf t) :=
  inferInstanceAs (Decidable (_ = _))

/-- Keys whose textual form parses back: everything except `None` (formats to
the empty string), `F(n)` for `n ≥ 100` (three digits do not parse), and
`Ctrl`/`Alt` of a non-ascii-alphanumeric character (the parser rejects the
payload). -/
def roundTrippable : Key → Prop
  | .none => False
  | .f n => n < 100
  | .ctrl c => isAsciiAlphanumeric c
  | .alt c => isAsciiAlphanumeric c
  | _ => True

instance (k : Key) : Decidable (roundTrippable k) :=
  match k with
  | .none => inferInstanceAs (Decidable False)
  | .f _ => inferInstanceAs (Decidable (_ < _))
  | .ctrl c => inferInstanceAs (Decidable (isAsciiAlphanumeric c))
  | .alt c => inferInstanceAs (Decidable (isAsciiAlphanumeric c))
  | .backspace | .enter | .left | .right | .up | .down | .home | .endKey
  | .pageUp | .pageDown | .tab | .delete | .esc | .char _ =>
    inferInstanceAs (Decidable True)

/-- The `BufferContent` operations of claim C6.  The word/delimiter/search
queries (`word_at`, `words_from`, `find_delimiter_pair_at`,
`find_balanced_chars_at`, `find_search_ranges`) take `&self` in Rust — they
cannot mutate the content, so they appear here as operations whose content
effect is the identity. -/
inductive ContentOp
  | insertOp (p : BufferPosition) (t : List Byte)
  | deleteOp (r : BufferRange)
  | clearOp
  | readOp (input : List Byte)
  | queryOp

def applyContentOp (c : BufferContent) : ContentOp → BufferContent
  | .insertOp p t => (contentInsertText c p t).1
  | .deleteOp r => contentDeleteRange c r
  | .clearOp => contentClear c
  | .readOp input => contentRead input
  | .queryOp => c

/-- Validity of an operation's coordinates (out-of-range coordinates panic in
Rust before any result is produced; `Buffer` always saturates them first). -/
def contentOpValid (c : BufferContent) : ContentOp → Prop
  | .insertOp p _ => p.lineIndex < c.length
  | .deleteOp r => r.fromPos.lineIndex < c.length ∧ r.toPos.lineIndex < c.length
      ∧ BufferPosition.le r.fromPos r.toPos
  | _ => True

instance (c : BufferContent) (op : ContentOp) : Decidable (contentOpValid c op) :=
  match op with
  | .insertOp _ _ => inferInstanceAs (Decidable (_ < _))
  | .deleteOp _ => inferInstanceAs (Decidable (_ ∧ _))
  | .clearOp | .readOp _ | .queryOp => inferInstanceAs (Decidable True)

/-- An `Except` value that is an error. -/
def isErr {ε α : Type _} : Except ε α → Prop
  | .error _ => True
  | .ok _ => False

/-! ## Supporting lemmas -/

/-- With `noCrLf` unfolded to the adjacency chain used by the proofs. -/
theorem noCrLf_chain (t : List Byte) :
    noCrLf t ↔ List.Chain' (fun a b => ¬(a = cr ∧ b = nl)) t := by
  rw [noCrLf]
  induction t with
  | nil => simp [noCrLfB]
  | cons a rest ih =>
    cases rest with
    | nil => simp [noCrLfB]
    | cons b rs =>
      rw [List.chain'_cons]
      rw [← ih]
      simp only [noCrLfB, Bool.and_eq_true, Bool.not_eq_true', Bool.and_eq_false_iff]
      constructor
      · rintro ⟨h1, h2⟩
        refine ⟨?_, h2⟩
        rintro ⟨rfl, rfl⟩
        rcases h1 with h1 | h1 <;> simp at h1
      · rintro ⟨h1, h2⟩
        refine ⟨?_, h2⟩
        by_cases hac : a = cr
        · right
          simp only [beq_eq_false_iff_ne, ne_eq]
          intro hbn
          exact h1 ⟨hac, hbn⟩
        · left
          simp only [beq_eq_false_iff_ne, ne_eq]
          exact hac


theorem getLastD_cons_eq {α} (x : α) (l : List α) (d : α) :
    (x :: l).getLastD d = (x :: l).getLast (List.cons_ne_nil x l) := by
  induction l generalizing x d with
  | nil => rfl
  | cons y ys ih => rw [List.getLastD_cons, ih y x, List.getLast_cons (List.cons_ne_nil y ys)]

theorem splitInclusiveNl_flatten (t : List Byte) : (splitInclusiveNl t).flatten = t := by
  induction t with
  | nil => rfl
  | cons b rest ih =>
    by_cases hb : b = nl
    · subst hb; simp [splitInclusiveNl, ih]
    · simp only [splitInclusiveNl, if_neg hb]
      cases h : splitInclusiveNl rest with
      | nil =>
        have : rest = [] := by
          cases rest with
          | nil => rfl
          | cons x xs =>
            exfalso
            simp only [splitInclusiveNl] at h
            by_cases hx : x = nl
            · simp [hx] at h
            · simp only [if_neg hx] at h
              cases hsp : splitInclusiveNl xs <;> simp [hsp] at h
        subst this; rfl
      | cons c cs =>
        rw [h] at ih
        simpa using ih

theorem linesMapStrip_cons (b : Byte) (c0 : List Byte) (hc : c0 ≠ [])
    (h : List.Chain' (fun a b => ¬(a = cr ∧ b = nl)) (b :: c0)) :
    linesMapStrip (b :: c0) = b :: linesMapStrip c0 := by
  obtain ⟨c, c0', rfl⟩ : ∃ c c0', c0 = c :: c0' := by
    cases c0 with
    | nil => exact absurd rfl hc
    | cons c c0' => exact ⟨c, c0', rfl⟩
  unfold linesMapStrip
  rw [List.getLast?_cons_cons]
  by_cases h1 : (c :: c0').getLast? = some nl
  · simp only [if_pos h1, List.dropLast_cons₂]
    cases hd : (c :: c0').dropLast with
    | nil =>
      have hcnl : c = nl := by
        cases c0' with
        | nil => simpa using h1
        | cons d ds => simp at hd
      have hc0' : c0' = [] := by
        cases c0' with
        | nil => rfl
        | cons d ds => simp at hd
      subst hcnl; subst hc0'
      have hbcr : ¬(b = cr ∧ nl = nl) := (List.chain'_cons.mp h).1
      have : ¬ b = cr := fun hb => hbcr ⟨hb, rfl⟩
      simp [this]
    | cons d ds =>
      rw [List.getLast?_cons_cons]
      by_cases h2 : (d :: ds).getLast? = some cr
      · simp [h2, List.dropLast_cons₂]
      · simp [h2]
  · simp [if_neg h1]

theorem splitInclusiveNl_chunk_ne_nil (t c : List Byte) (cs : List (List Byte))
    (h : splitInclusiveNl t = c :: cs) : c ≠ [] := by
  cases t with
  | nil => simp [splitInclusiveNl] at h
  | cons b r =>
    by_cases hb : b = nl
    · simp only [splitInclusiveNl, if_pos hb] at h
      injection h with h1 _
      subst h1; simp
    · simp only [splitInclusiveNl, if_neg hb] at h
      cases hsp : splitInclusiveNl r with
      | nil => rw [hsp] at h; injection h with h1 _; subst h1; simp
      | cons c0 cs0 => rw [hsp] at h; injection h with h1 _; subst h1; simp

theorem splitInclusiveNl_ne_nil (t : List Byte) (h : t ≠ []) :
    splitInclusiveNl t ≠ [] := by
  cases t with
  | nil => exact absurd rfl h
  | cons b r =>
    by_cases hb : b = nl
    · simp [splitInclusiveNl, hb]
    · simp only [splitInclusiveNl, if_neg hb]
      cases hsp : splitInclusiveNl r <;> simp

/-- Joining the lines of `t` with a newline after each reproduces `t` when `t`
ends with a newline, else appends one — provided no `\r\n` occurs (whose
`\r` the Rust `str::lines` strips). -/
theorem rustLines_flatten (t : List Byte)
    (h : List.Chain' (fun a b => ¬(a = cr ∧ b = nl)) t) :
    ((rustLines t).map (fun l => l ++ [nl])).flatten
      = if t.getLast? = some nl then t else if t = [] then [] else t ++ [nl] := by
  induction t with
  | nil => rfl
  | cons b rest ih =>
    have hrest := List.Chain'.tail h
    specialize ih hrest
    by_cases hb : b = nl
    · subst hb
      have hdecomp : rustLines (nl :: rest) = [] :: rustLines rest := by
        simp [rustLines, splitInclusiveNl, linesMapStrip, nl]
      rw [hdecomp]
      cases rest with
      | nil => rfl
      | cons x xs =>
        simp only [List.map_cons, List.flatten_cons, List.nil_append,
          List.getLast?_cons_cons]
        rw [ih]
        by_cases hend : (x :: xs).getLast? = some nl
        · simp [hend]
        · simp [hend]
    · by_cases hrne0 : rest = []
      · subst hrne0
        have : rustLines [b] = [[b]] := by
          simp [rustLines, splitInclusiveNl, if_neg hb, linesMapStrip, nl]
          intro hcon
          exact absurd hcon hb
        rw [this]
        simp only [List.map_cons, List.map_nil, List.flatten_cons,
          List.flatten_nil, List.append_nil]
        have : ([b] : List Byte).getLast? = some b := rfl
        rw [this]
        simp [hb]
      · have hrne : rest ≠ [] := hrne0
        obtain ⟨c0, cs, hsp⟩ : ∃ c0 cs, splitInclusiveNl rest = c0 :: cs := by
          cases hq : splitInclusiveNl rest with
          | nil => exact absurd hq (splitInclusiveNl_ne_nil rest hrne)
          | cons c0 cs => exact ⟨c0, cs, rfl⟩
        have hc0 : c0 ≠ [] := splitInclusiveNl_chunk_ne_nil rest c0 cs hsp
        have hpre : rest = c0 ++ cs.flatten := by
          conv_lhs => rw [← splitInclusiveNl_flatten rest]
          rw [hsp]; simp
        have hchain : List.Chain' (fun a b => ¬(a = cr ∧ b = nl)) (b :: c0) := by
          have := List.Chain'.take h (c0.length + 1)
          rw [show (b :: rest).take (c0.length + 1) = b :: rest.take c0.length by simp] at this
          rw [hpre] at this
          rw [List.take_left] at this
          exact this
        have hsplit : splitInclusiveNl (b :: rest) = (b :: c0) :: cs := by
          simp [splitInclusiveNl, if_neg hb, hsp]
        have hdecomp : rustLines (b :: rest)
            = (b :: linesMapStrip c0) :: (cs.map linesMapStrip) := by
          simp [rustLines, hsplit, linesMapStrip_cons b c0 hc0 hchain]
        have hdecomp2 : rustLines rest = linesMapStrip c0 :: (cs.map linesMapStrip) := by
          simp [rustLines, hsp]
        rw [hdecomp]
        simp only [List.map_cons, List.flatten_cons, List.cons_append]
        have hihx : linesMapStrip c0 ++ [nl]
              ++ (cs.map linesMapStrip |>.map (fun l => l ++ [nl])).flatten
            = ((rustLines rest).map (fun l => l ++ [nl])).flatten := by
          rw [hdecomp2]; simp
        rw [List.append_assoc] at hihx ⊢
        rw [hihx, ih]
        have hlast : (b :: rest).getLast? = rest.getLast? := by
          obtain ⟨x, xs, hxx⟩ := List.exists_cons_of_ne_nil hrne
          rw [hxx]
          exact List.getLast?_cons_cons
        rw [hlast]
        by_cases hend : rest.getLast? = some nl
        · simp [hend]
        · simp [hend, hrne]

theorem splitInclusiveNl_dropLast_no_nl (t : List Byte) :
    ∀ c ∈ splitInclusiveNl t, ∀ b ∈ c.dropLast, b ≠ nl := by
  induction t with
  | nil => intro c hc; simp [splitInclusiveNl] at hc
  | cons x rest ih =>
    intro c hc b hb
    by_cases hx : x = nl
    · simp only [splitInclusiveNl, if_pos hx] at hc
      rcases List.mem_cons.mp hc with hc | hc
      · subst hc; simp at hb
      · exact ih c hc b hb
    · simp only [splitInclusiveNl, if_neg hx] at hc
      cases hsp : splitInclusiveNl rest with
      | nil =>
        rw [hsp] at hc
        simp at hc
        subst hc; simp at hb
      | cons c0 cs =>
        rw [hsp] at hc
        simp at hc
        rcases hc with hc | hc
        · subst hc
          have hc0 : c0 ≠ [] := splitInclusiveNl_chunk_ne_nil rest c0 cs hsp
          obtain ⟨y, ys, rfl⟩ := List.exists_cons_of_ne_nil hc0
          rw [List.dropLast_cons₂] at hb
          rcases List.mem_cons.mp hb with rfl | hb
          · exact hx
          · exact ih (y :: ys) (by rw [hsp]; simp) b (by simpa using hb)
        · exact ih c (by rw [hsp]; simp [hc]) b hb

theorem splitInclusiveNl_no_nl_of_last (t c : List Byte) (hc : c ∈ splitInclusiveNl t)
    (hlast : c.getLast? ≠ some nl) : nl ∉ c := by
  intro hmem
  obtain ⟨y, ys, rfl⟩ := List.exists_cons_of_ne_nil (List.ne_nil_of_mem hmem)
  have hd := List.dropLast_append_getLast (List.cons_ne_nil y ys)
  rcases (List.mem_append.mp (hd ▸ hmem)) with h | h
  · exact splitInclusiveNl_dropLast_no_nl t _ hc nl h rfl
  · simp at h
    apply hlast
    rw [List.getLast?_eq_getLast_of_ne_nil (List.cons_ne_nil y ys), h]

theorem rustLines_no_nl (t : List Byte) : ∀ l ∈ rustLines t, nl ∉ l := by
  intro l hl
  unfold rustLines at hl
  obtain ⟨c, hc, rfl⟩ := List.mem_map.mp hl
  unfold linesMapStrip
  by_cases hend : c.getLast? = some nl
  · rw [if_pos hend]
    have hdl : nl ∉ c.dropLast := fun hmem =>
      splitInclusiveNl_dropLast_no_nl t c hc nl hmem rfl
    by_cases hcr : c.dropLast.getLast? = some cr
    · rw [if_pos hcr]
      intro hmem
      exact hdl (List.dropLast_subset _ hmem)
    · rw [if_neg hcr]
      exact hdl
  · rw [if_neg hend]
    exact splitInclusiveNl_no_nl_of_last t c hc hend


theorem getD_mem_of_lt {α} (l : List α) (n : Nat) (d : α) (h : n < l.length) :
    l.getD n d ∈ l := by
  rw [List.getD_eq_getElem l d h]
  exact List.getElem_mem h

theorem contentWf_insert (c : BufferContent) (p : BufferPosition) (t : List Byte)
    (hwf : contentWf c) (hline : p.lineIndex < c.length) :
    contentWf (contentInsertText c p t).1 := by
  obtain ⟨hne, hnl⟩ := hwf
  have hlmem : c.getD p.lineIndex [] ∈ c := getD_mem_of_lt c p.lineIndex [] hline
  have hlinenl : nl ∉ c.getD p.lineIndex [] := hnl _ hlmem
  have hhead : nl ∉ (c.getD p.lineIndex []).take p.columnByteIndex :=
    fun hb => hlinenl (List.take_subset _ _ hb)
  have hsplitl : nl ∉ (c.getD p.lineIndex []).drop p.columnByteIndex :=
    fun hb => hlinenl (List.drop_subset _ _ hb)
  unfold contentInsertText
  by_cases hcont : t.contains nl
  · have hcond : ¬ (¬ t.contains nl = true) := fun hx => hx hcont
    rw [if_neg hcond]
    have hheadD : nl ∉ (rustLines t).headD [] := by
      cases hps : rustLines t with
      | nil => simp
      | cons p0 pt => exact rustLines_no_nl t p0 (by rw [hps]; simp)
    have htail : ∀ l ∈ (rustLines t).tail, nl ∉ l := by
      intro l hl
      exact rustLines_no_nl t l (List.tail_subset _ hl)
    have hfirst : nl ∉ (c.getD p.lineIndex []).take p.columnByteIndex
        ++ (rustLines t).headD [] := by
      intro hmem
      rcases List.mem_append.mp hmem with h | h
      · exact hhead h
      · exact hheadD h
    have hmemline : ∀ x ∈ ((c.getD p.lineIndex []).take p.columnByteIndex
        ++ (rustLines t).headD []) :: (rustLines t).tail, nl ∉ x := by
      intro x hx
      rcases List.mem_cons.mp hx with rfl | hx
      · exact hfirst
      · exact htail x hx
    by_cases hends : t.getLast? = some nl
    · rw [if_pos hends]
      refine ⟨by simp, ?_⟩
      intro l hl
      rcases List.mem_append.mp hl with h | h
      · rcases List.mem_append.mp h with h | h
        · exact hnl l (List.take_subset _ _ h)
        · rcases List.mem_cons.mp h with rfl | h
          · exact hfirst
          · rcases List.mem_append.mp h with h | h
            · exact htail l h
            · rw [List.mem_singleton.mp h]
              exact hsplitl
      · exact hnl l (List.drop_subset _ _ h)
    · rw [if_neg hends]
      refine ⟨by simp, ?_⟩
      intro l hl
      rcases List.mem_append.mp hl with h | h
      · rcases List.mem_append.mp h with h | h
        · exact hnl l (List.take_subset _ _ h)
        · rcases List.mem_append.mp h with h | h
          · exact hmemline l (List.dropLast_subset _ h)
          · rw [List.mem_singleton.mp h]
            intro hmem
            rcases List.mem_append.mp hmem with h2 | h2
            · have hgl := getLastD_cons_eq
                ((c.getD p.lineIndex []).take p.columnByteIndex ++ (rustLines t).headD [])
                (rustLines t).tail []
              rw [hgl] at h2
              exact hmemline _ (List.getLast_mem _) h2
            · exact hsplitl h2
      · exact hnl l (List.drop_subset _ _ h)
  · rw [if_pos (by simpa using hcont)]
    refine ⟨by simp [hne], ?_⟩
    intro l hl
    rcases List.mem_or_eq_of_mem_set hl with h | h
    · exact hnl l h
    · subst h
      intro hmem
      unfold lineInsert at hmem
      rcases List.mem_append.mp hmem with h | h
      · rcases List.mem_append.mp h with h | h
        · exact hhead h
        · revert h
          simpa using hcont
      · exact hsplitl h

end Pepper

namespace Pepper

theorem take_succ_getD {α} (l : List α) (n : Nat) (d : α) (h : n < l.length) :
    l.take (n + 1) = l.take n ++ [l.getD n d] := by
  rw [List.take_succ]
  congr 1
  rw [List.getElem?_eq_getElem h]
  simp [List.getD_eq_getElem?_getD, List.getElem?_eq_getElem h]

theorem contentDeleteRange_multi_eq (c : BufferContent) (r : BufferRange)
    (htl : r.toPos.lineIndex < c.length)
    (hord : r.fromPos.lineIndex < r.toPos.lineIndex) :
    contentDeleteRange c r
      = c.take r.fromPos.lineIndex
        ++ ((c.getD r.fromPos.lineIndex []).take r.fromPos.columnByteIndex
            ++ (c.getD r.toPos.lineIndex []).drop r.toPos.columnByteIndex)
          :: c.drop (r.toPos.lineIndex + 1) := by
  obtain ⟨⟨fl, fc⟩, ⟨tl, tc⟩⟩ := r
  simp only at htl hord ⊢
  have hfl : fl < c.length := Nat.lt_trans hord htl
  have hne : fl ≠ tl := Nat.ne_of_lt hord
  have hstep : contentDeleteRange c ⟨⟨fl, fc⟩, ⟨tl, tc⟩⟩
      = (if fl + 1 < (if fl + 1 < tl then
              (c.set fl ((c.getD fl []).take fc)).take (fl + 1)
                ++ (c.set fl ((c.getD fl []).take fc)).drop tl
            else c.set fl ((c.getD fl []).take fc)).length then
          (((if fl + 1 < tl then
              (c.set fl ((c.getD fl []).take fc)).take (fl + 1)
                ++ (c.set fl ((c.getD fl []).take fc)).drop tl
            else c.set fl ((c.getD fl []).take fc)).eraseIdx (fl + 1)).set fl
            ((((if fl + 1 < tl then
              (c.set fl ((c.getD fl []).take fc)).take (fl + 1)
                ++ (c.set fl ((c.getD fl []).take fc)).drop tl
            else c.set fl ((c.getD fl []).take fc)).eraseIdx (fl + 1)).getD fl [])
              ++ ((if fl + 1 < tl then
              (c.set fl ((c.getD fl []).take fc)).take (fl + 1)
                ++ (c.set fl ((c.getD fl []).take fc)).drop tl
            else c.set fl ((c.getD fl []).take fc)).getD (fl + 1) []).drop tc))
        else (if fl + 1 < tl then
              (c.set fl ((c.getD fl []).take fc)).take (fl + 1)
                ++ (c.set fl ((c.getD fl []).take fc)).drop tl
            else c.set fl ((c.getD fl []).take fc))) := by
    simp only [contentDeleteRange]
    rw [if_neg hne]
  rw [hstep]
  clear hstep
  set c1 := c.set fl ((c.getD fl []).take fc) with hc1
  have hc1len : c1.length = c.length := by simp [hc1]
  have hc2eq : (if fl + 1 < tl then c1.take (fl + 1) ++ c1.drop tl else c1)
      = c1.take (fl + 1) ++ c1.drop tl := by
    by_cases hmid : fl + 1 < tl
    · rw [if_pos hmid]
    · rw [if_neg hmid]
      have htleq : tl = fl + 1 := by omega
      rw [htleq, List.take_append_drop]
  rw [hc2eq]
  have htakelen : (c1.take (fl + 1)).length = fl + 1 := by
    rw [List.length_take]
    omega
  have hc2len : (c1.take (fl + 1) ++ c1.drop tl).length = fl + 1 + (c.length - tl) := by
    rw [List.length_append, htakelen, List.length_drop, hc1len]
  have hcond : fl + 1 < (c1.take (fl + 1) ++ c1.drop tl).length := by
    rw [hc2len]
    omega
  rw [if_pos hcond]
  have hdropne : c1.drop tl ≠ [] := by
    intro hcon
    have := congrArg List.length hcon
    rw [List.length_drop, hc1len] at this
    simp at this
    omega
  have herase : (c1.take (fl + 1) ++ c1.drop tl).eraseIdx (fl + 1)
      = c1.take (fl + 1) ++ c1.drop (tl + 1) := by
    rw [List.eraseIdx_append_of_length_le (Nat.le_of_eq htakelen) (c1.drop tl)]
    rw [htakelen]
    simp [List.tail_drop]
  rw [herase]
  have hgd1 : (c1.take (fl + 1) ++ c1.drop (tl + 1)).getD fl [] = (c.getD fl []).take fc := by
    have h1 : (c1.take (fl + 1) ++ c1.drop (tl + 1)).getD fl []
        = (c1.take (fl + 1)).getD fl [] := by
      simp [List.getD_eq_getElem?_getD, List.getElem?_append, htakelen]
    have h2 : (c1.take (fl + 1)).getD fl [] = c1.getD fl [] := by
      simp [List.getD_eq_getElem?_getD, List.getElem?_take]
    have h3 : c1.getD fl [] = (c.getD fl []).take fc := by
      rw [hc1]
      simp [List.getD_eq_getElem?_getD, List.getElem?_set_self, hfl]
    rw [h1, h2, h3]
  have hgd2 : (c1.take (fl + 1) ++ c1.drop tl).getD (fl + 1) [] = c.getD tl [] := by
    have h1 : (c1.take (fl + 1) ++ c1.drop tl).getD (fl + 1) []
        = (c1.drop tl).getD ((fl + 1) - (c1.take (fl + 1)).length) [] := by
      simp [List.getD_eq_getElem?_getD, List.getElem?_append_right, htakelen]
    have h2 : (fl + 1) - (c1.take (fl + 1)).length = 0 := by
      rw [htakelen]
      omega
    have h3 : (c1.drop tl).getD 0 [] = c1.getD tl [] := by
      simp [List.getD_eq_getElem?_getD, List.getElem?_drop]
    have h4 : c1.getD tl [] = c.getD tl [] := by
      rw [hc1]
      simp [List.getD_eq_getElem?_getD, List.getElem?_set_ne hne]
    rw [h1, h2, h3, h4]
  rw [hgd1, hgd2]
  have hsetin : (c1.take (fl + 1) ++ c1.drop (tl + 1)).set fl
        ((c.getD fl []).take fc ++ (c.getD tl []).drop tc)
      = (c1.take (fl + 1)).set fl ((c.getD fl []).take fc ++ (c.getD tl []).drop tc)
        ++ c1.drop (tl + 1) := by
    rw [List.set_append_left]
    rw [htakelen]
    omega
  rw [hsetin]
  have hdrop : c1.drop (tl + 1) = c.drop (tl + 1) := by
    rw [hc1, List.drop_set]
    simp [Nat.not_le.mpr (show fl < tl + 1 by omega)]
  have htake : (c1.take (fl + 1)).set fl ((c.getD fl []).take fc ++ (c.getD tl []).drop tc)
      = c.take fl ++ [(c.getD fl []).take fc ++ (c.getD tl []).drop tc] := by
    rw [hc1, List.set_take, List.set_set]
    rw [take_succ_getD c fl [] hfl]
    rw [List.set_append_right _ _ (by rw [List.length_take]; omega)]
    have hidx : fl - (c.take fl).length = 0 := by
      rw [List.length_take]
      omega
    rw [hidx]
    rfl
  rw [htake, hdrop]
  simp

theorem contentWf_delete (c : BufferContent) (r : BufferRange)
    (hwf : contentWf c) (hfl : r.fromPos.lineIndex < c.length)
    (htl : r.toPos.lineIndex < c.length)
    (hord : BufferPosition.le r.fromPos r.toPos) :
    contentWf (contentDeleteRange c r) := by
  obtain ⟨hne, hnl⟩ := hwf
  have hfmem : c.getD r.fromPos.lineIndex [] ∈ c := getD_mem_of_lt c _ [] hfl
  have htmem : c.getD r.toPos.lineIndex [] ∈ c := getD_mem_of_lt c _ [] htl
  by_cases hsame : r.fromPos.lineIndex = r.toPos.lineIndex
  · unfold contentDeleteRange
    rw [if_pos hsame]
    refine ⟨by simp [hne], ?_⟩
    intro l hl
    rcases List.mem_or_eq_of_mem_set hl with h | h
    · exact hnl l h
    · subst h
      intro hmem
      rcases List.mem_append.mp hmem with h | h
      · exact hnl _ hfmem (List.take_subset _ _ h)
      · exact hnl _ hfmem (List.drop_subset _ _ h)
  · have hlt : r.fromPos.lineIndex < r.toPos.lineIndex := by
      rcases hord with h | ⟨h1, _⟩
      · exact h
      · exact absurd h1 hsame
    rw [contentDeleteRange_multi_eq c r htl hlt]
    refine ⟨by simp, ?_⟩
    intro l hl
    rcases List.mem_append.mp hl with h | h
    · exact hnl l (List.take_subset _ _ h)
    · rcases List.mem_cons.mp h with rfl | h
      · intro hmem
        rcases List.mem_append.mp hmem with h | h
        · exact hnl _ hfmem (List.take_subset _ _ h)
        · exact hnl _ htmem (List.drop_subset _ _ h)
      · exact hnl l (List.drop_subset _ _ h)

theorem contentWf_clear (c : BufferContent) : contentWf (contentClear c) := by
  refine ⟨by simp [contentClear], ?_⟩
  intro l hl
  simp [contentClear] at hl
  subst hl
  simp

theorem readStrip_no_nl (t c : List Byte) (hc : c ∈ splitInclusiveNl t) :
    nl ∉ readStrip c := by
  unfold readStrip
  by_cases hend : c.getLast? = some nl
  · rw [if_pos hend]
    have hdl : nl ∉ c.dropLast := fun hmem =>
      splitInclusiveNl_dropLast_no_nl t c hc nl hmem rfl
    by_cases hcr : c.dropLast.getLast? = some cr
    · rw [if_pos hcr]
      exact fun hmem => hdl (List.dropLast_subset _ hmem)
    · rw [if_neg hcr]
      exact hdl
  · rw [if_neg hend]
    have hcnl : nl ∉ c := splitInclusiveNl_no_nl_of_last t c hc hend
    by_cases hcr : c.getLast? = some cr
    · rw [if_pos hcr]
      exact fun hmem => hcnl (List.dropLast_subset _ hmem)
    · rw [if_neg hcr]
      exact hcnl

theorem contentWf_read (input : List Byte) : contentWf (contentRead input) := by
  unfold contentRead
  have hstrip : ∀ l ∈ (splitInclusiveNl input).map readStrip, nl ∉ l := by
    intro l hl
    obtain ⟨chunk, hc, rfl⟩ := List.mem_map.mp hl
    exact readStrip_no_nl input chunk hc
  cases hls : (splitInclusiveNl input).map readStrip with
  | nil => exact ⟨by simp, by intro l hl; simp at hl; subst hl; simp⟩
  | cons l0 rest =>
    simp only [List.isEmpty_cons, if_false, Bool.false_eq_true]
    refine ⟨by simp, ?_⟩
    intro l hl
    rcases List.mem_cons.mp hl with rfl | h
    · by_cases hbom : l0.take 3 = [239, 187, 191]
      · rw [if_pos hbom]
        exact fun hmem => hstrip l0 (by rw [hls]; simp) (List.drop_subset _ _ hmem)
      · rw [if_neg hbom]
        exact hstrip l0 (by rw [hls]; simp)
    · exact hstrip l (by rw [hls]; simp [h])

theorem split_front {p q A B : List Byte} (h : p ++ q = A ++ B)
    (hlen : A.length ≤ p.length) : ∃ p2, p = A ++ p2 ∧ p2 ++ q = B := by
  refine ⟨p.drop A.length, ?_, ?_⟩
  · have : p.take A.length = A := by
      have h1 : (p ++ q).take A.length = A := by
        rw [h, List.take_append_of_le_length (Nat.le_refl _)]
        simp
      rw [List.take_append_of_le_length hlen] at h1
      exact h1
    conv_lhs => rw [← List.take_append_drop A.length p]
    rw [this]
  · have h2 : (p ++ q).drop A.length = B := by
      rw [h, List.drop_append_of_le_length (Nat.le_refl _)]
      simp
    rw [List.drop_append_of_le_length hlen] at h2
    rw [← h2]

theorem serU8_rt (n : Nat) (rest : List Byte) (h : n < 256) :
    deserU8 (serU8 n ++ rest) = .ok (n, rest) := by
  simp [serU8, deserU8, Nat.mod_eq_of_lt h]

theorem serU16_rt (n : Nat) (rest : List Byte) (h : n < 65536) :
    deserU16 (serU16 n ++ rest) = .ok (n, rest) := by
  simp only [serU16, List.cons_append, List.nil_append, deserU16]
  congr 1
  congr 1
  omega

theorem serU32_rt (n : Nat) (rest : List Byte) (h : n < 4294967296) :
    deserU32 (serU32 n ++ rest) = .ok (n, rest) := by
  simp only [serU32, List.cons_append, List.nil_append, deserU32]
  congr 1
  congr 1
  omega

theorem exceptBindOk {ε α β : Type _} (a : α) (f : α → Except ε β) :
    (do let x ← Except.ok a; f x : Except ε β) = f a := rfl

theorem exceptBindErr {ε α β : Type _} (e : ε) (f : α → Except ε β) :
    (do let x ← Except.error (α := α) e; f x : Except ε β) = Except.error e := rfl

theorem serBytes_rt (bs : List Byte) (rest : List Byte) (h : bs.length < 4294967296) :
    deserBytes (serBytes bs ++ rest) = .ok (bs, rest) := by
  unfold deserBytes serBytes
  rw [List.append_assoc, serU32_rt bs.length (bs ++ rest) h, exceptBindOk]
  show (if bs.length ≤ (bs ++ rest).length then
      Except.ok ((bs ++ rest).take bs.length, (bs ++ rest).drop bs.length)
    else Except.error DeserializeError.insufficientData) = Except.ok (bs, rest)
  rw [if_pos (by simp)]
  simp [List.take_left, List.drop_left]

theorem serTarget_rt (t : TargetClient) (rest : List Byte) :
    deserTarget (serTarget t ++ rest) = .ok (t, rest) := by
  cases t <;> rfl

theorem serKey_rt (k : Key) (rest : List Byte) (h : keyWf k) :
    deserKey (serKey k ++ rest) = .ok (k, rest) := by
  cases k with
  | f n =>
    have hn : n < 256 := h
    have hform : serKey (.f n) ++ rest = 13 :: (n % 256) :: rest := rfl
    have hred : deserKey (13 :: (n % 256) :: rest) = .ok (.f (n % 256), rest) := rfl
    rw [hform, hred, Nat.mod_eq_of_lt hn]
  | char c =>
    have hc : c < 4294967296 := h
    have hform : serKey (.char c) ++ rest
        = 14 :: (c % 256) :: (c / 256 % 256) :: (c / 65536 % 256)
          :: (c / 16777216 % 256) :: rest := rfl
    have hred : deserKey (14 :: (c % 256) :: (c / 256 % 256) :: (c / 65536 % 256)
          :: (c / 16777216 % 256) :: rest)
        = .ok (.char (c % 256 + 256 * (c / 256 % 256) + 65536 * (c / 65536 % 256)
            + 16777216 * (c / 16777216 % 256)), rest) := rfl
    have hval : c % 256 + 256 * (c / 256 % 256) + 65536 * (c / 65536 % 256)
        + 16777216 * (c / 16777216 % 256) = c := by omega
    rw [hform, hred, hval]
  | ctrl c =>
    have hc : c < 4294967296 := h
    have hform : serKey (.ctrl c) ++ rest
        = 15 :: (c % 256) :: (c / 256 % 256) :: (c / 65536 % 256)
          :: (c / 16777216 % 256) :: rest := rfl
    have hred : deserKey (15 :: (c % 256) :: (c / 256 % 256) :: (c / 65536 % 256)
          :: (c / 16777216 % 256) :: rest)
        = .ok (.ctrl (c % 256 + 256 * (c / 256 % 256) + 65536 * (c / 65536 % 256)
            + 16777216 * (c / 16777216 % 256)), rest) := rfl
    have hval : c % 256 + 256 * (c / 256 % 256) + 65536 * (c / 65536 % 256)
        + 16777216 * (c / 16777216 % 256) = c := by omega
    rw [hform, hred, hval]
  | alt c =>
    have hc : c < 4294967296 := h
    have hform : serKey (.alt c) ++ rest
        = 16 :: (c % 256) :: (c / 256 % 256) :: (c / 65536 % 256)
          :: (c / 16777216 % 256) :: rest := rfl
    have hred : deserKey (16 :: (c % 256) :: (c / 256 % 256) :: (c / 65536 % 256)
          :: (c / 16777216 % 256) :: rest)
        = .ok (.alt (c % 256 + 256 * (c / 256 % 256) + 65536 * (c / 65536 % 256)
            + 16777216 * (c / 16777216 % 256)), rest) := rfl
    have hval : c % 256 + 256 * (c / 256 % 256) + 65536 * (c / 65536 % 256)
        + 16777216 * (c / 16777216 % 256) = c := by omega
    rw [hform, hred, hval]
  | none => rfl
  | backspace => rfl
  | enter => rfl
  | left => rfl
  | right => rfl
  | up => rfl
  | down => rfl
  | home => rfl
  | endKey => rfl
  | pageUp => rfl
  | pageDown => rfl
  | tab => rfl
  | delete => rfl
  | esc => rfl

theorem serClientEvent_rt (e : ClientEvent) (rest : List Byte) (h : eventWf e) :
    deserClientEvent (serClientEvent e ++ rest) = .ok (e, rest) := by
  cases e with
  | key target k =>
    have hform : serClientEvent (.key target k) ++ rest
        = 0 :: (serTarget target ++ (serKey k ++ rest)) := by
      show (serU8 0 ++ serTarget target ++ serKey k) ++ rest = _
      simp [serU8]
    rw [hform]
    have hstep : deserClientEvent (0 :: (serTarget target ++ (serKey k ++ rest)))
        = (do
            let (t, l) ← deserTarget (serTarget target ++ (serKey k ++ rest))
            let (k2, l) ← deserKey l
            Except.ok (ClientEvent.key t k2, l)) := rfl
    rw [hstep, serTarget_rt, exceptBindOk]
    show (do
        let (k2, l) ← deserKey (serKey k ++ rest)
        Except.ok (ClientEvent.key target k2, l)) = _
    rw [serKey_rt k rest h, exceptBindOk]
  | resize w h2 =>
    obtain ⟨hw, hh⟩ := h
    have hform : serClientEvent (.resize w h2) ++ rest
        = 1 :: (serU16 w ++ (serU16 h2 ++ rest)) := by
      show (serU8 1 ++ serU16 w ++ serU16 h2) ++ rest = _
      simp [serU8]
    rw [hform]
    have hstep : deserClientEvent (1 :: (serU16 w ++ (serU16 h2 ++ rest)))
        = (do
            let (a, l) ← deserU16 (serU16 w ++ (serU16 h2 ++ rest))
            let (b, l) ← deserU16 l
            Except.ok (ClientEvent.resize a b, l)) := rfl
    rw [hstep, serU16_rt w _ hw, exceptBindOk]
    show (do
        let (b, l) ← deserU16 (serU16 h2 ++ rest)
        Except.ok (ClientEvent.resize w b, l)) = _
    rw [serU16_rt h2 rest hh, exceptBindOk]
  | command target text =>
    have hform : serClientEvent (.command target text) ++ rest
        = 2 :: (serTarget target ++ (serBytes text ++ rest)) := by
      show (serU8 2 ++ serTarget target ++ serBytes text) ++ rest = _
      simp [serU8]
    rw [hform]
    have hstep : deserClientEvent (2 :: (serTarget target ++ (serBytes text ++ rest)))
        = (do
            let (t, l) ← deserTarget (serTarget target ++ (serBytes text ++ rest))
            let (bs, l) ← deserBytes l
            Except.ok (ClientEvent.command t bs, l)) := rfl
    rw [hstep, serTarget_rt, exceptBindOk]
    show (do
        let (bs, l) ← deserBytes (serBytes text ++ rest)
        Except.ok (ClientEvent.command target bs, l)) = _
    rw [serBytes_rt text rest h, exceptBindOk]
  | stdinInput target bytes =>
    have hform : serClientEvent (.stdinInput target bytes) ++ rest
        = 3 :: (serTarget target ++ (serBytes bytes ++ rest)) := by
      show (serU8 3 ++ serTarget target ++ serBytes bytes) ++ rest = _
      simp [serU8]
    rw [hform]
    have hstep : deserClientEvent (3 :: (serTarget target ++ (serBytes bytes ++ rest)))
        = (do
            let (t, l) ← deserTarget (serTarget target ++ (serBytes bytes ++ rest))
            let (bs, l) ← deserBytes l
            Except.ok (ClientEvent.stdinInput t bs, l)) := rfl
    rw [hstep, serTarget_rt, exceptBindOk]
    show (do
        let (bs, l) ← deserBytes (serBytes bytes ++ rest)
        Except.ok (ClientEvent.stdinInput target bs, l)) = _
    rw [serBytes_rt bytes rest h, exceptBindOk]

theorem isErr_iff {ε α : Type _} (x : Except ε α) : isErr x ↔ ∃ e, x = .error e := by
  cases x <;> simp [isErr]

theorem deserU16_short (p : List Byte) (h : p.length < 2) : isErr (deserU16 p) := by
  match p, h with
  | [], _ => exact trivial
  | [a], _ => exact trivial

theorem deserU32_short (p : List Byte) (h : p.length < 4) : isErr (deserU32 p) := by
  match p, h with
  | [], _ => exact trivial
  | [a], _ => exact trivial
  | [a, b], _ => exact trivial
  | [a, b, c], _ => exact trivial

theorem deserBytes_cut (bs p q : List Byte) (hlen : bs.length < 4294967296)
    (hpq : p ++ q = serBytes bs) (hq : q ≠ []) : isErr (deserBytes p) := by
  have hserlen : (serU32 bs.length).length = 4 := rfl
  by_cases hp4 : p.length < 4
  · have hu := deserU32_short p hp4
    obtain ⟨err, herr⟩ := (isErr_iff _).mp hu
    have hstep : deserBytes p = (do
        let (n, l) ← deserU32 p
        if n ≤ l.length then Except.ok (l.take n, l.drop n)
        else Except.error DeserializeError.insufficientData) := rfl
    rw [hstep, herr, exceptBindErr]
    exact trivial
  · obtain ⟨p2, hp2, hp2q⟩ := split_front (hpq.trans rfl)
      (by rw [hserlen]; omega)
    have hplen : p2.length < bs.length := by
      have := congrArg List.length hp2q
      simp [List.length_append] at this
      have hqlen : 0 < q.length := List.length_pos.mpr hq
      omega
    have hstep : deserBytes p = (do
        let (n, l) ← deserU32 p
        if n ≤ l.length then Except.ok (l.take n, l.drop n)
        else Except.error DeserializeError.insufficientData) := rfl
    rw [hstep, hp2, serU32_rt bs.length p2 hlen, exceptBindOk]
    show isErr (if bs.length ≤ p2.length then
        Except.ok (p2.take bs.length, p2.drop bs.length)
      else Except.error DeserializeError.insufficientData)
    rw [if_neg (by omega)]
    exact trivial

theorem prefix_singleton {p q : List Byte} {d : Byte} (hpq : p ++ q = [d])
    (hq : q ≠ []) : p = [] := by
  have hlen := congrArg List.length hpq
  simp only [List.length_append, List.length_cons, List.length_nil] at hlen
  have hqpos : 0 < q.length := List.length_pos.mpr hq
  have : p.length = 0 := by omega
  exact List.length_eq_zero.mp this

theorem deserKey_nil_err : isErr (deserKey ([] : List Byte)) := trivial

theorem deserKey_u32_payload_err (d : Byte) (p2 : List Byte) (hd : d = 14 ∨ d = 15 ∨ d = 16)
    (hlen : p2.length < 4) : isErr (deserKey (d :: p2)) := by
  obtain ⟨err, herr⟩ := (isErr_iff _).mp (deserU32_short p2 hlen)
  rcases hd with rfl | rfl | rfl
  · have hstep : deserKey (14 :: p2) = (do
        let (c, l) ← deserU32 p2
        Except.ok (Key.char c, l)) := rfl
    rw [hstep, herr, exceptBindErr]
    exact trivial
  · have hstep : deserKey (15 :: p2) = (do
        let (c, l) ← deserU32 p2
        Except.ok (Key.ctrl c, l)) := rfl
    rw [hstep, herr, exceptBindErr]
    exact trivial
  · have hstep : deserKey (16 :: p2) = (do
        let (c, l) ← deserU32 p2
        Except.ok (Key.alt c, l)) := rfl
    rw [hstep, herr, exceptBindErr]
    exact trivial

theorem cons_prefix_split {p q rest : List Byte} {d : Byte} (hpq : p ++ q = d :: rest)
    (hp : p ≠ []) : ∃ p2, p = d :: p2 ∧ p2 ++ q = rest := by
  cases p with
  | nil => exact absurd rfl hp
  | cons x p2 =>
    rw [List.cons_append] at hpq
    injection hpq with h1 h2
    exact ⟨p2, by rw [h1], h2⟩

theorem payload_short {p2 q rest : List Byte} (hpq : p2 ++ q = rest) (hq : q ≠ []) :
    p2.length < rest.length := by
  have hlen := congrArg List.length hpq
  simp only [List.length_append] at hlen
  have hqpos : 0 < q.length := List.length_pos.mpr hq
  omega

theorem deserKey_cut (k : Key) (p q : List Byte) (h : keyWf k)
    (hpq : p ++ q = serKey k) (hq : q ≠ []) : isErr (deserKey p) := by
  by_cases hp : p = []
  · subst hp; exact deserKey_nil_err
  cases k with
  | f n =>
    obtain ⟨p2, rfl, hp2q⟩ := cons_prefix_split hpq hp
    have hp2 : p2 = [] := prefix_singleton hp2q hq
    subst hp2
    exact trivial
  | char c =>
    obtain ⟨p2, rfl, hp2q⟩ := cons_prefix_split hpq hp
    exact deserKey_u32_payload_err 14 p2 (Or.inl rfl) (payload_short hp2q hq)
  | ctrl c =>
    obtain ⟨p2, rfl, hp2q⟩ := cons_prefix_split hpq hp
    exact deserKey_u32_payload_err 15 p2 (Or.inr (Or.inl rfl)) (payload_short hp2q hq)
  | alt c =>
    obtain ⟨p2, rfl, hp2q⟩ := cons_prefix_split hpq hp
    exact deserKey_u32_payload_err 16 p2 (Or.inr (Or.inr rfl)) (payload_short hp2q hq)
  | none => exact absurd (prefix_singleton hpq hq) hp
  | backspace => exact absurd (prefix_singleton hpq hq) hp
  | enter => exact absurd (prefix_singleton hpq hq) hp
  | left => exact absurd (prefix_singleton hpq hq) hp
  | right => exact absurd (prefix_singleton hpq hq) hp
  | up => exact absurd (prefix_singleton hpq hq) hp
  | down => exact absurd (prefix_singleton hpq hq) hp
  | home => exact absurd (prefix_singleton hpq hq) hp
  | endKey => exact absurd (prefix_singleton hpq hq) hp
  | pageUp => exact absurd (prefix_singleton hpq hq) hp
  | pageDown => exact absurd (prefix_singleton hpq hq) hp
  | tab => exact absurd (prefix_singleton hpq hq) hp
  | delete => exact absurd (prefix_singleton hpq hq) hp
  | esc => exact absurd (prefix_singleton hpq hq) hp

theorem deserClientEvent_cut (e : ClientEvent) (p q : List Byte) (h : eventWf e)
    (hpq : p ++ q = serClientEvent e) (hq : q ≠ []) : isErr (deserClientEvent p) := by
  by_cases hp : p = []
  · subst hp; exact trivial
  cases e with
  | key target k =>
    have hform : serClientEvent (.key target k) = 0 :: (serTarget target ++ serKey k) := by
      show serU8 0 ++ serTarget target ++ serKey k = _
      simp [serU8]
    rw [hform] at hpq
    obtain ⟨p1, rfl, hp1q⟩ := cons_prefix_split hpq hp
    by_cases hp1 : p1 = []
    · subst hp1
      exact trivial
    · have hst : (serTarget target).length = 1 := by cases target <;> rfl
      obtain ⟨p2, rfl, hp2q⟩ := split_front hp1q
        (by rw [hst]; exact List.length_pos.mpr hp1)
      obtain ⟨err, herr⟩ := (isErr_iff _).mp (deserKey_cut k p2 q h hp2q hq)
      have hstep : deserClientEvent (0 :: (serTarget target ++ p2)) = (do
          let (t, l) ← deserTarget (serTarget target ++ p2)
          let (k2, l) ← deserKey l
          Except.ok (ClientEvent.key t k2, l)) := rfl
      rw [hstep, serTarget_rt, exceptBindOk]
      show isErr (do
          let (k2, l) ← deserKey p2
          Except.ok (ClientEvent.key target k2, l))
      rw [herr, exceptBindErr]
      exact trivial
  | resize w h2 =>
    obtain ⟨hw, hh⟩ := h
    have hform : serClientEvent (.resize w h2) = 1 :: (serU16 w ++ serU16 h2) := by
      show serU8 1 ++ serU16 w ++ serU16 h2 = _
      simp [serU8]
    rw [hform] at hpq
    obtain ⟨p1, rfl, hp1q⟩ := cons_prefix_split hpq hp
    have hstep : deserClientEvent (1 :: p1) = (do
        let (a, l) ← deserU16 p1
        let (b, l) ← deserU16 l
        Except.ok (ClientEvent.resize a b, l)) := rfl
    by_cases hlen2 : p1.length < 2
    · obtain ⟨err, herr⟩ := (isErr_iff _).mp (deserU16_short p1 hlen2)
      rw [hstep, herr, exceptBindErr]
      exact trivial
    · have hst : (serU16 w).length = 2 := rfl
      obtain ⟨p2, hp1eq, hp2q⟩ := split_front hp1q (by rw [hst]; omega)
      have hlenp2 : p2.length < 2 := by
        have := payload_short hp2q hq
        simpa using this
      obtain ⟨err, herr⟩ := (isErr_iff _).mp (deserU16_short p2 hlenp2)
      rw [hstep, hp1eq, serU16_rt w p2 hw, exceptBindOk]
      show isErr (do
          let (b, l) ← deserU16 p2
          Except.ok (ClientEvent.resize w b, l))
      rw [herr, exceptBindErr]
      exact trivial
  | command target text =>
    have hform : serClientEvent (.command target text)
        = 2 :: (serTarget target ++ serBytes text) := by
      show serU8 2 ++ serTarget target ++ serBytes text = _
      simp [serU8]
    rw [hform] at hpq
    obtain ⟨p1, rfl, hp1q⟩ := cons_prefix_split hpq hp
    by_cases hp1 : p1 = []
    · subst hp1
      exact trivial
    · have hst : (serTarget target).length = 1 := by cases target <;> rfl
      obtain ⟨p2, rfl, hp2q⟩ := split_front hp1q
        (by rw [hst]; exact List.length_pos.mpr hp1)
      obtain ⟨err, herr⟩ := (isErr_iff _).mp (deserBytes_cut text p2 q h hp2q hq)
      have hstep : deserClientEvent (2 :: (serTarget target ++ p2)) = (do
          let (t, l) ← deserTarget (serTarget target ++ p2)
          let (bs, l) ← deserBytes l
          Except.ok (ClientEvent.command t bs, l)) := rfl
      rw [hstep, serTarget_rt, exceptBindOk]
      show isErr (do
          let (bs, l) ← deserBytes p2
          Except.ok (ClientEvent.command target bs, l))
      rw [herr, exceptBindErr]
      exact trivial
  | stdinInput target bytes =>
    have hform : serClientEvent (.stdinInput target bytes)
        = 3 :: (serTarget target ++ serBytes bytes) := by
      show serU8 3 ++ serTarget target ++ serBytes bytes = _
      simp [serU8]
    rw [hform] at hpq
    obtain ⟨p1, rfl, hp1q⟩ := cons_prefix_split hpq hp
    by_cases hp1 : p1 = []
    · subst hp1
      exact trivial
    · have hst : (serTarget target).length = 1 := by cases target <;> rfl
      obtain ⟨p2, rfl, hp2q⟩ := split_front hp1q
        (by rw [hst]; exact List.length_pos.mpr hp1)
      obtain ⟨err, herr⟩ := (isErr_iff _).mp (deserBytes_cut bytes p2 q h hp2q hq)
      have hstep : deserClientEvent (3 :: (serTarget target ++ p2)) = (do
          let (t, l) ← deserTarget (serTarget target ++ p2)
          let (bs, l) ← deserBytes l
          Except.ok (ClientEvent.stdinInput t bs, l)) := rfl
      rw [hstep, serTarget_rt, exceptBindOk]
      show isErr (do
          let (bs, l) ← deserBytes p2
          Except.ok (ClientEvent.stdinInput target bs, l))
      rw [herr, exceptBindErr]
      exact trivial

theorem serClientEvent_len_pos (e : ClientEvent) : 0 < (serClientEvent e).length := by
  cases e <;> simp [serClientEvent, serU8]

theorem drain_spec (es : List ClientEvent) (P Q : List Byte) (fuel : Nat)
    (hwf : ∀ e ∈ es, eventWf e)
    (hPQ : P ++ Q = (es.map serClientEvent).flatten)
    (hfuel : P.length < fuel) :
    ∃ es₁ es₂ leftover,
      es = es₁ ++ es₂
      ∧ drainEvents fuel P = (es₁, leftover)
      ∧ P = (es₁.map serClientEvent).flatten ++ leftover
      ∧ (es₂ = [] → leftover = [])
      ∧ (∀ e2 es₂', es₂ = e2 :: es₂'
          → ∃ q2, q2 ≠ [] ∧ leftover ++ q2 = serClientEvent e2) := by
  induction es generalizing P Q fuel with
  | nil =>
    have hP : P = [] := by
      have hlen := congrArg List.length hPQ
      simp only [List.map_nil, List.flatten_nil, List.length_append,
        List.length_nil] at hlen
      have : P.length = 0 := by omega
      exact List.length_eq_zero.mp this
    subst hP
    obtain ⟨f, rfl⟩ : ∃ f, fuel = f + 1 := by
      cases fuel with
      | zero => simp at hfuel
      | succ f => exact ⟨f, rfl⟩
    exact ⟨[], [], [], rfl, rfl, rfl, fun _ => rfl, fun e2 es2 h => by simp at h⟩
  | cons e es' ih =>
    have hwfe : eventWf e := hwf e (by simp)
    have hwf' : ∀ x ∈ es', eventWf x := fun x hx => hwf x (by simp [hx])
    rw [List.map_cons, List.flatten_cons] at hPQ
    obtain ⟨f, rfl⟩ : ∃ f, fuel = f + 1 := by
      cases fuel with
      | zero => simp at hfuel
      | succ f => exact ⟨f, rfl⟩
    by_cases hshort : P.length < (serClientEvent e).length
    · -- P is a proper prefix of the first event's bytes: the drain stops at P.
      have hPpre : P ++ ((serClientEvent e).drop P.length
            ++ (es'.map serClientEvent).flatten) = serClientEvent e
            ++ (es'.map serClientEvent).flatten := by
        rw [← List.append_assoc]
        congr 1
        have : (serClientEvent e).take P.length = P := by
          have h1 : (P ++ Q).take P.length = P := by simp
          rw [hPQ] at h1
          rw [List.take_append_of_le_length (Nat.le_of_lt hshort)] at h1
          exact h1
        conv_rhs => rw [← List.take_append_drop P.length (serClientEvent e), this]
      have hq2ne : (serClientEvent e).drop P.length ≠ [] := by
        intro hcon
        have := congrArg List.length hcon
        simp at this
        omega
      have hq2 : P ++ (serClientEvent e).drop P.length = serClientEvent e := by
        have := hPpre
        rw [← List.append_assoc] at this
        exact List.append_cancel_right this
      have hdrain : drainEvents (f + 1) P = ([], P) := by
        by_cases hPnil : P = []
        · subst hPnil; rfl
        · have herr := deserClientEvent_cut e P _ hwfe hq2 hq2ne
          obtain ⟨err, herr2⟩ := (isErr_iff _).mp herr
          simp [drainEvents, hPnil, herr2]
      refine ⟨[], e :: es', P, rfl, hdrain, by simp, by simp, ?_⟩
      intro e2 es2 heq
      injection heq with h1 h2
      subst h1
      exact ⟨(serClientEvent e).drop P.length, hq2ne, hq2⟩
    · -- P contains the whole first event: consume it and recurse.
      obtain ⟨P2, hPeq, hP2Q⟩ := split_front hPQ (Nat.le_of_not_lt hshort)
      have hdeser : deserClientEvent P = .ok (e, P2) := by
        rw [hPeq]
        exact serClientEvent_rt e P2 hwfe
      have hPne : P ≠ [] := by
        intro hcon
        rw [hcon] at hPeq
        have := congrArg List.length hPeq
        simp at this
        have := serClientEvent_len_pos e
        omega
      have hP2fuel : P2.length < f := by
        have h1 := congrArg List.length hPeq
        simp [List.length_append] at h1
        have := serClientEvent_len_pos e
        omega
      obtain ⟨es₁, es₂, leftover, hsplit, hdrain, hPdecomp, hnil, hhead⟩ :=
        ih P2 Q f hwf' hP2Q hP2fuel
      refine ⟨e :: es₁, es₂, leftover, by rw [hsplit]; rfl, ?_, ?_, hnil, hhead⟩
      · have : drainEvents (f + 1) P
            = (e :: (drainEvents f P2).1, (drainEvents f P2).2) := by
          simp [drainEvents, hPne, hdeser]
        rw [this, hdrain]
      · rw [List.map_cons, List.flatten_cons, List.append_assoc, ← hPdecomp]
        exact hPeq

theorem processChunks_fold (chunks : List (List Byte)) (done es₂ : List ClientEvent)
    (B : List Byte)
    (hwf : ∀ e ∈ es₂, eventWf e)
    (hstream : B ++ chunks.flatten = (es₂.map serClientEvent).flatten)
    (hstate : B = [] ∨ ∀ h2 : es₂ ≠ [],
      ∃ q2, q2 ≠ [] ∧ B ++ q2 = serClientEvent (es₂.head h2)) :
    chunks.foldl
      (fun acc chunk =>
        let (es, buf) := feedChunk acc.2 chunk
        (acc.1 ++ es, buf))
      (done, B)
      = (done ++ es₂, []) := by
  induction chunks generalizing done es₂ B with
  | nil =>
    simp only [List.foldl_nil]
    have hes2 : es₂ = [] := by
      cases hes : es₂ with
      | nil => rfl
      | cons e2 rest =>
        exfalso
        subst hes
        simp only [List.flatten_nil, List.append_nil] at hstream
        rcases hstate with hB | hB
        · rw [hB] at hstream
          have hlen := congrArg List.length hstream.symm
          simp only [List.map_cons, List.flatten_cons, List.length_append,
            List.length_nil] at hlen
          have := serClientEvent_len_pos e2
          omega
        · obtain ⟨q2, hq2ne, hq2⟩ := hB (by simp)
          have hlenB := congrArg List.length hstream
          have hlenq := congrArg List.length hq2
          simp only [List.map_cons, List.flatten_cons, List.length_append,
            List.head_cons] at hlenB hlenq
          have hq2pos : 0 < q2.length := List.length_pos.mpr hq2ne
          have hrest : 0 ≤ ((rest.map serClientEvent).flatten).length := Nat.zero_le _
          omega
    subst hes2
    simp only [List.map_nil, List.flatten_nil, List.append_nil] at hstream
    rw [hstream]
    simp
  | cons c chunks' ih =>
    simp only [List.foldl_cons]
    have hPQ : (B ++ c) ++ chunks'.flatten = (es₂.map serClientEvent).flatten := by
      rw [List.append_assoc]
      simpa using hstream
    obtain ⟨es₁, es₂', leftover, hsplit, hdrain, hPdecomp, hnil, hhead⟩ :=
      drain_spec es₂ (B ++ c) chunks'.flatten ((B ++ c).length + 1)
        hwf hPQ (Nat.lt_succ_self _)
    have hfeed : feedChunk B c = (es₁, leftover) := hdrain
    rw [hfeed]
    have hwf' : ∀ e ∈ es₂', eventWf e := by
      intro e he
      exact hwf e (by rw [hsplit]; simp [he])
    have hstream' : leftover ++ chunks'.flatten = (es₂'.map serClientEvent).flatten := by
      have h1 : ((es₁.map serClientEvent).flatten ++ leftover) ++ chunks'.flatten
          = (es₁.map serClientEvent).flatten ++ (es₂'.map serClientEvent).flatten := by
        rw [← hPdecomp, hPQ, hsplit]
        simp
      rw [List.append_assoc] at h1
      exact List.append_cancel_left h1
    have hstate' : leftover = [] ∨ ∀ h2 : es₂' ≠ [],
        ∃ q2, q2 ≠ [] ∧ leftover ++ q2 = serClientEvent (es₂'.head h2) := by
      cases hes2 : es₂' with
      | nil => exact Or.inl (hnil hes2)
      | cons e2 rest =>
        right
        intro h2
        simp only [List.head_cons]
        exact hhead e2 rest hes2
    have hrec := ih (done ++ es₁) es₂' leftover hwf' hstream' hstate'
    exact hrec.trans (by rw [hsplit, List.append_assoc])

theorem between_eq (a b : BufferPosition) (h : BufferPosition.le a b) :
    BufferRange.between a b = ⟨a, b⟩ := by
  unfold BufferRange.between BufferPosition.minPos BufferPosition.maxPos
  rw [if_pos h, if_pos h]

theorem set_getD_self {α} (c : List α) (n : Nat) (d : α) (h : n < c.length) :
    c.set n (c.getD n d) = c := by
  induction c generalizing n with
  | nil => simp at h
  | cons x xs ih =>
    cases n with
    | zero => simp [List.getD]
    | succ m =>
      simp only [List.length_cons, Nat.succ_lt_succ_iff] at h
      rw [List.getD_cons_succ]
      show x :: xs.set m (xs.getD m d) = x :: xs
      rw [ih m h]

theorem shape_getD_lt {α} (A B : List α) (x d : α) (i : Nat) (h : i < A.length) :
    (A ++ x :: B).getD i d = A.getD i d := by
  induction A generalizing i with
  | nil => simp at h
  | cons a as ih =>
    cases i with
    | zero => simp [List.getD]
    | succ j =>
      simp only [List.length_cons, Nat.succ_lt_succ_iff] at h
      rw [List.cons_append, List.getD_cons_succ, List.getD_cons_succ]
      exact ih j h

theorem shape_getD_eq {α} (A B : List α) (x d : α) :
    (A ++ x :: B).getD A.length d = x := by
  induction A with
  | nil => simp [List.getD]
  | cons a as ih => simpa [List.getD_cons_succ] using ih

theorem shape_getD_gt {α} (A B : List α) (x d : α) (j : Nat) :
    (A ++ x :: B).getD (A.length + 1 + j) d = B.getD j d := by
  induction A with
  | nil => simpa [List.getD_cons_succ, Nat.add_comm 1 j] using rfl
  | cons a as ih =>
    have : as.length + 1 + 1 + j = (as.length + 1 + j) + 1 := by omega
    simp only [List.cons_append, List.length_cons, this, List.getD_cons_succ]
    exact ih

theorem shape_take_le {α} (A B : List α) (x : α) (i : Nat) (h : i ≤ A.length) :
    (A ++ x :: B).take i = A.take i := by
  rw [List.take_append_of_le_length h]

theorem shape_take_eq {α} (A B : List α) (x : α) :
    (A ++ x :: B).take A.length = A := by
  rw [shape_take_le A B x A.length (Nat.le_refl _), List.take_length]

theorem shape_drop_gt {α} (A B : List α) (x : α) :
    (A ++ x :: B).drop (A.length + 1) = B := by
  have h1 : A ++ x :: B = (A ++ [x]) ++ B := by simp
  have h2 : (A ++ [x]).length = A.length + 1 := by simp
  rw [h1, ← h2, List.drop_left]

theorem shape_set_eq {α} (A B : List α) (x y : α) :
    (A ++ x :: B).set A.length y = A ++ y :: B := by
  induction A with
  | nil => simp
  | cons a as ih => simpa using ih

theorem shape_decomp {α} (c : List α) (n : Nat) (d : α) (h : n < c.length) :
    c = c.take n ++ c.getD n d :: c.drop (n + 1) := by
  conv_lhs => rw [← List.take_append_drop (n + 1) c]
  rw [take_succ_getD c n d h]
  simp

theorem contentInsertText_nonl (c : BufferContent) (p : BufferPosition) (t : List Byte)
    (h : nl ∉ t) :
    contentInsertText c p t
      = (c.set p.lineIndex (lineInsert (c.getD p.lineIndex []) p.columnByteIndex t),
          ⟨p, ⟨p.lineIndex, p.columnByteIndex + t.length⟩⟩) := by
  unfold contentInsertText
  rw [if_pos (by simpa using h)]
  show (c.set p.lineIndex (lineInsert (c.getD p.lineIndex []) p.columnByteIndex t),
      BufferRange.between p ⟨p.lineIndex, p.columnByteIndex + t.length⟩) = _
  rw [between_eq p ⟨p.lineIndex, p.columnByteIndex + t.length⟩
    (Or.inr ⟨rfl, Nat.le_add_right _ _⟩)]

theorem contentDeleteRange_same (c : BufferContent) (l a b : Nat) :
    contentDeleteRange c ⟨⟨l, a⟩, ⟨l, b⟩⟩
      = c.set l ((c.getD l []).take a ++ (c.getD l []).drop b) := by
  unfold contentDeleteRange
  rw [if_pos rfl]

theorem contentInsertText_single_nl (c : BufferContent) (l a : Nat) :
    contentInsertText c ⟨l, a⟩ [nl]
      = (c.take l ++ ((c.getD l []).take a) :: ((c.getD l []).drop a) :: c.drop (l + 1),
          ⟨⟨l, a⟩, ⟨l + 1, 0⟩⟩) := by
  have hred : contentInsertText c ⟨l, a⟩ [nl]
      = (c.take l ++ (((c.getD l []).take a ++ []) :: [(c.getD l []).drop a]) ++ c.drop (l + 1),
          BufferRange.between ⟨l, a⟩ ⟨l + 1, 0⟩) := rfl
  rw [hred, between_eq ⟨l, a⟩ ⟨l + 1, 0⟩ (Or.inl (Nat.lt_succ_self l))]
  simp

theorem drop_length_add {α} (A B : List α) (j : Nat) :
    (A ++ B).drop (A.length + j) = B.drop j := by
  induction A with
  | nil => simp
  | cons a as ih => simpa [Nat.succ_add] using ih

theorem contentInsertText_nl_ends (c : BufferContent) (p : BufferPosition) (t : List Byte)
    (hcont : nl ∈ t) (hends : t.getLast? = some nl) :
    contentInsertText c p t
      = (c.take p.lineIndex
          ++ (((c.getD p.lineIndex []).take p.columnByteIndex ++ (rustLines t).headD [])
              :: (rustLines t).tail
                ++ [(c.getD p.lineIndex []).drop p.columnByteIndex])
          ++ c.drop (p.lineIndex + 1),
        BufferRange.between p ⟨p.lineIndex + (rustLines t).tail.length + 1, 0⟩) := by
  unfold contentInsertText
  rw [if_neg (not_not_intro (by simpa using hcont))]
  dsimp only
  rw [if_pos hends]

theorem contentInsertText_nl_mid (c : BufferContent) (p : BufferPosition) (t : List Byte)
    (hcont : nl ∈ t) (hends : ¬ t.getLast? = some nl) :
    contentInsertText c p t
      = (c.take p.lineIndex
          ++ ((((c.getD p.lineIndex []).take p.columnByteIndex ++ (rustLines t).headD [])
                :: (rustLines t).tail).dropLast
              ++ [(((c.getD p.lineIndex []).take p.columnByteIndex ++ (rustLines t).headD [])
                    :: (rustLines t).tail).getLastD []
                  ++ (c.getD p.lineIndex []).drop p.columnByteIndex])
          ++ c.drop (p.lineIndex + 1),
        BufferRange.between p
          ⟨p.lineIndex + (rustLines t).tail.length,
            ((((c.getD p.lineIndex []).take p.columnByteIndex ++ (rustLines t).headD [])
              :: (rustLines t).tail).getLastD []).length⟩) := by
  unfold contentInsertText
  rw [if_neg (not_not_intro (by simpa using hcont))]
  dsimp only
  rw [if_neg hends]

theorem splitInclusiveNl_two (t : List Byte) (hcont : nl ∈ t)
    (hends : ¬ t.getLast? = some nl) : 2 ≤ (splitInclusiveNl t).length := by
  induction t with
  | nil => simp at hcont
  | cons b rest ih =>
    by_cases hb : b = nl
    · subst hb
      have hrest : rest ≠ [] := by
        intro hr
        subst hr
        exact hends rfl
      have h1 := splitInclusiveNl_ne_nil rest hrest
      unfold splitInclusiveNl
      rw [if_pos rfl]
      have := List.length_pos.mpr h1
      simp only [List.length_cons]
      omega
    · have hcont' : nl ∈ rest := by
        rcases List.mem_cons.mp hcont with h | h
        · exact absurd h.symm hb
        · exact h
      have hrest : rest ≠ [] := List.ne_nil_of_mem hcont'
      have hends' : ¬ rest.getLast? = some nl := by
        obtain ⟨r0, rr, rfl⟩ := List.exists_cons_of_ne_nil hrest
        rw [List.getLast?_cons_cons] at hends
        exact hends
      have h2 := ih hcont' hends'
      unfold splitInclusiveNl
      rw [if_neg hb]
      cases hs : splitInclusiveNl rest with
      | nil => rw [hs] at h2; simp at h2
      | cons ch chs =>
        rw [hs] at h2
        simpa using h2

theorem getD_set_self {α} (c : List α) (n : Nat) (x d : α) (h : n < c.length) :
    (c.set n x).getD n d = x := by
  induction c generalizing n with
  | nil => simp at h
  | cons y ys ih =>
    cases n with
    | zero => rfl
    | succ m =>
      simp only [List.length_cons, Nat.succ_lt_succ_iff] at h
      rw [List.set_cons_succ, List.getD_cons_succ]
      exact ih m h

theorem lineInsert_take (line t : List Byte) (a : Nat) (ha : a ≤ line.length) :
    (lineInsert line a t).take a = line.take a := by
  unfold lineInsert
  have h1 : a ≤ (line.take a ++ t).length := by
    rw [List.length_append, List.length_take]
    omega
  rw [List.take_append_of_le_length h1,
    List.take_append_of_le_length (by rw [List.length_take]; omega),
    List.take_take]
  simp

theorem lineInsert_drop (line t : List Byte) (a : Nat) (ha : a ≤ line.length) :
    (lineInsert line a t).drop (a + t.length) = line.drop a := by
  unfold lineInsert
  have h1 : (line.take a ++ t).length = a + t.length := by
    rw [List.length_append, List.length_take]
    omega
  rw [← h1, List.drop_left]

theorem getLastD_concat_eq {α} (L : List α) (z d : α) : (L ++ [z]).getLastD d = z := by
  rw [List.getLastD_eq_getLast?, List.getLast?_concat]
  rfl

theorem insert_delete_inv (c : BufferContent) (l a : Nat) (t : List Byte)
    (hwf : contentWf c) (hl : l < c.length) (ha : a ≤ (c.getD l []).length) :
    contentDeleteRange (contentInsertText c ⟨l, a⟩ t).1 (contentInsertText c ⟨l, a⟩ t).2
      = c := by
  by_cases hcont : nl ∈ t
  · by_cases hends : t.getLast? = some nl
    · rw [contentInsertText_nl_ends c ⟨l, a⟩ t hcont hends]
      dsimp only
      rw [between_eq ⟨l, a⟩ ⟨l + (rustLines t).tail.length + 1, 0⟩
        (Or.inl (by show l < l + (rustLines t).tail.length + 1; omega))]
      set line := c.getD l [] with hline
      set A := c.take l with hA
      set B := c.drop (l + 1) with hB
      set M := (rustLines t).tail with hM
      set x := line.take a ++ (rustLines t).headD [] with hx
      have hshape : A ++ (x :: M ++ [line.drop a]) ++ B
          = A ++ x :: (M ++ line.drop a :: B) := by
        simp
      rw [hshape]
      have hAlen : A.length = l := by
        rw [hA, List.length_take]
        omega
      have hlenc : (A ++ x :: (M ++ line.drop a :: B)).length
          = c.length + M.length + 1 := by
        rw [hB, hA]
        simp only [List.length_append, List.length_cons, List.length_take,
          List.length_drop]
        omega
      rw [contentDeleteRange_multi_eq _ _
        (by show l + M.length + 1 < _; rw [hlenc]; omega)
        (by show l < l + M.length + 1; omega)]
      dsimp only
      have h1 : (A ++ x :: (M ++ line.drop a :: B)).take l = A := by
        rw [← hAlen, shape_take_eq]
      have h2 : (A ++ x :: (M ++ line.drop a :: B)).getD l [] = x := by
        rw [← hAlen, shape_getD_eq]
      have h3 : (A ++ x :: (M ++ line.drop a :: B)).getD (l + M.length + 1) [] =
          line.drop a := by
        have hidx : l + M.length + 1 = A.length + 1 + M.length := by omega
        rw [hidx, shape_getD_gt, shape_getD_eq]
      have h4 : (A ++ x :: (M ++ line.drop a :: B)).drop (l + M.length + 1 + 1) = B := by
        have hidx : l + M.length + 1 + 1 = (A ++ [x]).length + (M.length + 1) := by
          simp only [List.length_append, List.length_cons, List.length_nil]
          omega
        have hshape2 : A ++ x :: (M ++ line.drop a :: B)
            = (A ++ [x]) ++ (M ++ line.drop a :: B) := by simp
        rw [hshape2, hidx, drop_length_add]
        have hidx2 : M.length + 1 = (M ++ [line.drop a]).length := by simp
        have hshape3 : M ++ line.drop a :: B = (M ++ [line.drop a]) ++ B := by simp
        rw [hshape3, hidx2, List.drop_left]
      rw [h1, h2, h3, h4]
      have hxa : x.take a = line.take a := by
        rw [hx]
        exact List.take_left' (by rw [List.length_take]; omega)
      rw [hxa, List.drop_zero, List.take_append_drop]
      exact (shape_decomp c l [] hl).symm
    · rw [contentInsertText_nl_mid c ⟨l, a⟩ t hcont hends]
      dsimp only
      have hM2 : 2 ≤ (rustLines t).length := by
        rw [rustLines, List.length_map]
        exact splitInclusiveNl_two t hcont hends
      have hMne : (rustLines t).tail ≠ [] := by
        intro hx
        have := congrArg List.length hx
        rw [List.length_tail] at this
        simp at this
        omega
      set line := c.getD l [] with hline
      set A := c.take l with hA
      set B := c.drop (l + 1) with hB
      set M := (rustLines t).tail with hM
      set x := line.take a ++ (rustLines t).headD [] with hx
      obtain ⟨D, z, hDz⟩ : ∃ D z, M = D ++ [z] := by
        refine ⟨M.dropLast, M.getLast hMne, ?_⟩
        exact (List.dropLast_append_getLast hMne).symm
      have hdropLast : (x :: M).dropLast = x :: D := by
        rw [hDz, ← List.cons_append, List.dropLast_concat]
      have hlast : (x :: M).getLastD [] = z := by
        rw [hDz, ← List.cons_append, getLastD_concat_eq]
      rw [hdropLast, hlast]
      have hMlen : M.length = D.length + 1 := by rw [hDz]; simp
      rw [between_eq ⟨l, a⟩ ⟨l + M.length, z.length⟩
        (Or.inl (by show l < l + M.length; omega))]
      have hshape : A ++ (x :: D ++ [z ++ line.drop a]) ++ B
          = A ++ x :: (D ++ (z ++ line.drop a) :: B) := by
        simp
      rw [hshape]
      have hAlen : A.length = l := by
        rw [hA, List.length_take]
        omega
      have hlenc : (A ++ x :: (D ++ (z ++ line.drop a) :: B)).length
          = c.length + D.length + 1 := by
        rw [hB, hA]
        simp only [List.length_append, List.length_cons, List.length_take,
          List.length_drop]
        omega
      rw [contentDeleteRange_multi_eq _ _
        (by show l + M.length < _; rw [hlenc]; omega)
        (by show l < l + M.length; omega)]
      dsimp only
      have h1 : (A ++ x :: (D ++ (z ++ line.drop a) :: B)).take l = A := by
        rw [← hAlen, shape_take_eq]
      have h2 : (A ++ x :: (D ++ (z ++ line.drop a) :: B)).getD l [] = x := by
        rw [← hAlen, shape_getD_eq]
      have h3 : (A ++ x :: (D ++ (z ++ line.drop a) :: B)).getD (l + M.length) [] =
          z ++ line.drop a := by
        have hidx : l + M.length = A.length + 1 + D.length := by omega
        rw [hidx, shape_getD_gt, shape_getD_eq]
      have h4 : (A ++ x :: (D ++ (z ++ line.drop a) :: B)).drop (l + M.length + 1)
          = B := by
        have hidx : l + M.length + 1 = (A ++ [x]).length + (D.length + 1) := by
          simp only [List.length_append, List.length_cons, List.length_nil]
          omega
        have hshape2 : A ++ x :: (D ++ (z ++ line.drop a) :: B)
            = (A ++ [x]) ++ (D ++ (z ++ line.drop a) :: B) := by simp
        rw [hshape2, hidx, drop_length_add]
        have hidx2 : D.length + 1 = (D ++ [z ++ line.drop a]).length := by simp
        have hshape3 : D ++ (z ++ line.drop a) :: B = (D ++ [z ++ line.drop a]) ++ B := by
          simp
        rw [hshape3, hidx2, List.drop_left]
      rw [h1, h2, h3, h4]
      have hxa : x.take a = line.take a := by
        rw [hx]
        exact List.take_left' (by rw [List.length_take]; omega)
      have hza : (z ++ line.drop a).drop z.length = line.drop a := by
        have := drop_length_add z (line.drop a) 0
        simpa using this
      rw [hxa, hza, List.take_append_drop]
      exact (shape_decomp c l [] hl).symm
  · rw [contentInsertText_nonl c ⟨l, a⟩ t hcont]
    dsimp only
    rw [contentDeleteRange_same]
    rw [getD_set_self c l _ [] hl]
    rw [lineInsert_take _ _ _ ha, lineInsert_drop _ _ _ ha,
      List.take_append_drop, List.set_set, set_getD_self c l [] hl]

theorem getD_take {α} (c : List α) (n i : Nat) (d : α) (h : i < n) :
    (c.take n).getD i d = c.getD i d := by
  induction c generalizing n i with
  | nil => simp
  | cons x xs ih =>
    cases n with
    | zero => omega
    | succ m =>
      cases i with
      | zero => rfl
      | succ j =>
        rw [List.take_succ_cons, List.getD_cons_succ, List.getD_cons_succ]
        exact ih m j (by omega)

theorem shape_getD_at {α} (A B : List α) (x d : α) (i : Nat) (h : A.length = i) :
    (A ++ x :: B).getD i d = x := by
  subst h
  exact shape_getD_eq A B x d

theorem shape_take_at {α} (A B : List α) (x : α) (i : Nat) (h : A.length = i) :
    (A ++ x :: B).take i = A := by
  subst h
  exact shape_take_eq A B x

theorem shape_set_at {α} (A B : List α) (x y : α) (i : Nat) (h : A.length = i) :
    (A ++ x :: B).set i y = A ++ y :: B := by
  subst h
  exact shape_set_eq A B x y

theorem shape_drop_at {α} (A B : List α) (x : α) (i : Nat) (h : A.length + 1 = i) :
    (A ++ x :: B).drop i = B := by
  subst h
  exact shape_drop_gt A B x

theorem shape_getD_after {α} (A B : List α) (x d : α) (i j : Nat)
    (h : A.length + 1 + j = i) : (A ++ x :: B).getD i d = B.getD j d := by
  subst h
  exact shape_getD_gt A B x d j

theorem dle_fwd (c : BufferContent) (n fc : Nat) (rem : Line) (B : List Line)
    (hn : n < c.length) (hfc : fc ≤ (c.getD n []).length) :
    (deleteLineEdits c n fc).foldl applyEdit (c.take (n + 1) ++ rem :: B)
      = c.take n ++ ((c.getD n []).take fc ++ rem) :: B := by
  unfold deleteLineEdits
  dsimp only
  rw [List.foldl_cons, List.foldl_cons, List.foldl_nil]
  have hA1 : (c.take (n + 1)).length = n + 1 := by
    rw [List.length_take]
    omega
  have hA0 : (c.take n).length = n := by
    rw [List.length_take]
    omega
  have e1app : applyEdit (c.take (n + 1) ++ rem :: B)
      ⟨.delete, BufferRange.between ⟨n, (c.getD n []).length⟩ ⟨n + 1, 0⟩, [nl]⟩
      = c.take n ++ (c.getD n [] ++ rem) :: B := by
    show contentDeleteRange (c.take (n + 1) ++ rem :: B)
      (BufferRange.between ⟨n, (c.getD n []).length⟩ ⟨n + 1, 0⟩) = _
    rw [between_eq ⟨n, (c.getD n []).length⟩ ⟨n + 1, 0⟩
      (Or.inl (by show n < n + 1; omega))]
    rw [contentDeleteRange_multi_eq _ _
      (by show n + 1 < _; simp only [List.length_append, List.length_cons, hA1]; omega)
      (by show n < n + 1; omega)]
    dsimp only
    have h1 : (c.take (n + 1) ++ rem :: B).take n = c.take n := by
      rw [shape_take_le _ _ _ n (by omega), List.take_take]
      simp [Nat.min_def]
    have h2 : (c.take (n + 1) ++ rem :: B).getD n [] = c.getD n [] := by
      rw [shape_getD_lt _ _ _ _ n (by omega), getD_take c (n + 1) n [] (by omega)]
    have h3 : (c.take (n + 1) ++ rem :: B).getD (n + 1) [] = rem :=
      shape_getD_at _ _ _ _ _ hA1
    have h4 : (c.take (n + 1) ++ rem :: B).drop (n + 1 + 1) = B :=
      shape_drop_at _ _ _ _ (by omega)
    rw [h1, h2, h3, h4, List.take_length, List.drop_zero]
  rw [e1app]
  show contentDeleteRange (c.take n ++ (c.getD n [] ++ rem) :: B)
    (BufferRange.between ⟨n, fc⟩ ⟨n, (c.getD n []).length⟩) = _
  rw [between_eq ⟨n, fc⟩ ⟨n, (c.getD n []).length⟩ (Or.inr ⟨rfl, hfc⟩)]
  rw [contentDeleteRange_same]
  have h5 : (c.take n ++ (c.getD n [] ++ rem) :: B).getD n [] = c.getD n [] ++ rem :=
    shape_getD_at _ _ _ _ _ hA0
  rw [h5]
  have h6 : (c.getD n [] ++ rem).take fc = (c.getD n []).take fc :=
    List.take_append_of_le_length hfc
  have h7 : (c.getD n [] ++ rem).drop (c.getD n []).length = rem := List.drop_left _ _
  rw [h6, h7]
  exact shape_set_at _ _ _ _ _ hA0

theorem dle_bwd (c : BufferContent) (n fc : Nat) (rem : Line) (B : List Line)
    (hn : n < c.length) (hfc : fc ≤ (c.getD n []).length) (hnl : nl ∉ c.getD n []) :
    ((deleteLineEdits c n fc).reverse.map invertEdit).foldl applyEdit
      (c.take n ++ ((c.getD n []).take fc ++ rem) :: B)
      = c.take (n + 1) ++ rem :: B := by
  have hA0 : (c.take n).length = n := by
    rw [List.length_take]
    omega
  have hfcl : ((c.getD n []).take fc).length = fc := by
    rw [List.length_take]
    omega
  have hdfc : nl ∉ (c.getD n []).drop fc := fun hmem => hnl (List.drop_subset _ _ hmem)
  have e2app : applyEdit (c.take n ++ ((c.getD n []).take fc ++ rem) :: B)
      (invertEdit ⟨.delete, BufferRange.between ⟨n, fc⟩ ⟨n, (c.getD n []).length⟩,
        (c.getD n []).drop fc⟩)
      = c.take n ++ (c.getD n [] ++ rem) :: B := by
    rw [between_eq ⟨n, fc⟩ ⟨n, (c.getD n []).length⟩ (Or.inr ⟨rfl, hfc⟩)]
    show (contentInsertText (c.take n ++ ((c.getD n []).take fc ++ rem) :: B) ⟨n, fc⟩
      ((c.getD n []).drop fc)).1 = _
    rw [contentInsertText_nonl _ _ _ hdfc]
    dsimp only
    rw [shape_getD_at _ _ _ _ _ hA0]
    unfold lineInsert
    rw [List.take_left' hfcl, List.drop_left' hfcl, List.take_append_drop]
    exact shape_set_at _ _ _ _ _ hA0
  have e1app : applyEdit (c.take n ++ (c.getD n [] ++ rem) :: B)
      (invertEdit ⟨.delete,
        BufferRange.between ⟨n, (c.getD n []).length⟩ ⟨n + 1, 0⟩, [nl]⟩)
      = c.take (n + 1) ++ rem :: B := by
    rw [between_eq ⟨n, (c.getD n []).length⟩ ⟨n + 1, 0⟩
      (Or.inl (by show n < n + 1; omega))]
    show (contentInsertText (c.take n ++ (c.getD n [] ++ rem) :: B)
      ⟨n, (c.getD n []).length⟩ [nl]).1 = _
    rw [contentInsertText_single_nl]
    dsimp only
    rw [shape_take_at _ _ _ _ hA0, shape_getD_at _ _ _ _ _ hA0,
      shape_drop_at _ _ _ _ (by omega)]
    rw [List.take_left, List.drop_left]
    rw [take_succ_getD c n [] hn]
    simp
  unfold deleteLineEdits
  dsimp only
  rw [List.reverse_cons, List.reverse_cons, List.reverse_nil]
  simp only [List.nil_append, List.cons_append, List.map_cons, List.map_nil,
    List.foldl_cons, List.foldl_nil]
  rw [e2app]
  exact e1app

theorem mid_fwd (c : BufferContent) (fl tl : Nat) (rem : Line) (htl : tl < c.length) :
    ∀ j, fl + j + 1 ≤ tl →
      (middleDeleteEdits c fl j).foldl applyEdit
        (c.take (fl + j + 1) ++ rem :: c.drop (tl + 1))
        = c.take (fl + 1) ++ rem :: c.drop (tl + 1)
  | 0, _ => by rw [middleDeleteEdits, List.foldl_nil]
  | j + 1, hj => by
    rw [middleDeleteEdits, List.foldl_append]
    have hn : fl + j + 1 < c.length := by omega
    have hstep := dle_fwd c (fl + j + 1) 0 rem (c.drop (tl + 1)) hn (Nat.zero_le _)
    rw [List.take_zero, List.nil_append] at hstep
    have harg : fl + (j + 1) + 1 = fl + j + 1 + 1 := by omega
    rw [harg, hstep]
    exact mid_fwd c fl tl rem htl j (by omega)

theorem mid_bwd (c : BufferContent) (fl tl : Nat) (rem : Line) (htl : tl < c.length)
    (hnl : ∀ l ∈ c, nl ∉ l) :
    ∀ j, fl + j + 1 ≤ tl →
      ((middleDeleteEdits c fl j).reverse.map invertEdit).foldl applyEdit
        (c.take (fl + 1) ++ rem :: c.drop (tl + 1))
        = c.take (fl + j + 1) ++ rem :: c.drop (tl + 1)
  | 0, _ => by rw [middleDeleteEdits, List.reverse_nil, List.map_nil, List.foldl_nil]
  | j + 1, hj => by
    rw [middleDeleteEdits, List.reverse_append, List.map_append, List.foldl_append]
    rw [mid_bwd c fl tl rem htl hnl j (by omega)]
    have hn : fl + j + 1 < c.length := by omega
    have hstep := dle_bwd c (fl + j + 1) 0 rem (c.drop (tl + 1)) hn (Nat.zero_le _)
      (hnl _ (getD_mem_of_lt c _ [] hn))
    rw [List.take_zero, List.nil_append] at hstep
    have harg : fl + (j + 1) + 1 = fl + j + 1 + 1 := by omega
    rw [harg, hstep]

theorem set_eq_shape {α} (c : List α) (n : Nat) (y : α) (h : n < c.length) :
    c.set n y = c.take n ++ y :: c.drop (n + 1) := by
  induction c generalizing n with
  | nil => simp at h
  | cons x xs ih =>
    cases n with
    | zero => simp
    | succ m =>
      simp only [List.length_cons, Nat.succ_lt_succ_iff] at h
      rw [List.set_cons_succ, List.take_succ_cons, List.drop_succ_cons, ih m h]
      rfl

theorem deleteEdits_fwd_multi (c : BufferContent) (fl fc tl tc : Nat)
    (htl : tl < c.length) (hlt : fl < tl) (hfc : fc ≤ (c.getD fl []).length) :
    (deleteEdits c ⟨⟨fl, fc⟩, ⟨tl, tc⟩⟩).foldl applyEdit c
      = contentDeleteRange c ⟨⟨fl, fc⟩, ⟨tl, tc⟩⟩ := by
  have hfl : fl < c.length := by omega
  unfold deleteEdits
  dsimp only
  rw [if_neg (Nat.ne_of_lt hlt)]
  rw [List.foldl_cons, List.foldl_append]
  have hlast : applyEdit c
      ⟨.delete, BufferRange.between ⟨tl, 0⟩ ⟨tl, tc⟩, (c.getD tl []).take tc⟩
      = c.take tl ++ ((c.getD tl []).drop tc) :: c.drop (tl + 1) := by
    show contentDeleteRange c (BufferRange.between ⟨tl, 0⟩ ⟨tl, tc⟩) = _
    rw [between_eq ⟨tl, 0⟩ ⟨tl, tc⟩ (Or.inr ⟨rfl, Nat.zero_le _⟩)]
    rw [contentDeleteRange_same, List.take_zero, List.nil_append]
    exact set_eq_shape c tl _ htl
  rw [hlast]
  have harith : tl = fl + (tl - fl - 1) + 1 := by omega
  rw [show c.take tl ++ ((c.getD tl []).drop tc) :: c.drop (tl + 1)
      = c.take (fl + (tl - fl - 1) + 1) ++ ((c.getD tl []).drop tc) :: c.drop (tl + 1)
    from by rw [← harith]]
  rw [mid_fwd c fl tl _ htl (tl - fl - 1) (by omega)]
  rw [dle_fwd c fl fc _ _ hfl hfc]
  rw [contentDeleteRange_multi_eq _ _ (by exact htl) (by exact hlt)]

theorem deleteEdits_bwd_multi (c : BufferContent) (fl fc tl tc : Nat)
    (htl : tl < c.length) (hlt : fl < tl) (hfc : fc ≤ (c.getD fl []).length)
    (hnl : ∀ l ∈ c, nl ∉ l) :
    ((deleteEdits c ⟨⟨fl, fc⟩, ⟨tl, tc⟩⟩).reverse.map invertEdit).foldl applyEdit
      (contentDeleteRange c ⟨⟨fl, fc⟩, ⟨tl, tc⟩⟩) = c := by
  have hfl : fl < c.length := by omega
  have hAtl : (c.take tl).length = tl := by
    rw [List.length_take]
    omega
  unfold deleteEdits
  dsimp only
  rw [if_neg (Nat.ne_of_lt hlt)]
  rw [contentDeleteRange_multi_eq _ _ (by exact htl) (by exact hlt)]
  dsimp only
  rw [List.reverse_cons, List.reverse_append, List.map_append, List.map_append,
    List.foldl_append, List.foldl_append]
  rw [dle_bwd c fl fc _ _ hfl hfc (hnl _ (getD_mem_of_lt c _ [] hfl))]
  have harith : tl = fl + (tl - fl - 1) + 1 := by omega
  rw [show ((middleDeleteEdits c fl (tl - fl - 1)).reverse.map invertEdit).foldl applyEdit
        (c.take (fl + 1) ++ ((c.getD tl []).drop tc) :: c.drop (tl + 1))
      = c.take (fl + (tl - fl - 1) + 1) ++ ((c.getD tl []).drop tc) :: c.drop (tl + 1)
    from mid_bwd c fl tl _ htl hnl (tl - fl - 1) (by omega)]
  rw [← harith]
  show applyEdit (c.take tl ++ ((c.getD tl []).drop tc) :: c.drop (tl + 1))
    (invertEdit ⟨.delete, BufferRange.between ⟨tl, 0⟩ ⟨tl, tc⟩, (c.getD tl []).take tc⟩)
    = c
  rw [between_eq ⟨tl, 0⟩ ⟨tl, tc⟩ (Or.inr ⟨rfl, Nat.zero_le _⟩)]
  show (contentInsertText (c.take tl ++ ((c.getD tl []).drop tc) :: c.drop (tl + 1))
    ⟨tl, 0⟩ ((c.getD tl []).take tc)).1 = c
  have htake : nl ∉ (c.getD tl []).take tc :=
    fun hmem => hnl _ (getD_mem_of_lt c _ [] htl) (List.take_subset _ _ hmem)
  rw [contentInsertText_nonl _ _ _ htake]
  dsimp only
  rw [shape_getD_at _ _ _ _ _ hAtl]
  unfold lineInsert
  rw [List.take_zero, List.drop_zero, List.nil_append, List.take_append_drop]
  rw [shape_set_at _ _ _ _ _ hAtl]
  exact (shape_decomp c tl [] htl).symm

theorem deleteEdits_fwd_same (c : BufferContent) (fl fc tc : Nat) :
    (deleteEdits c ⟨⟨fl, fc⟩, ⟨fl, tc⟩⟩).foldl applyEdit c
      = contentDeleteRange c ⟨⟨fl, fc⟩, ⟨fl, tc⟩⟩ := by
  unfold deleteEdits
  dsimp only
  rw [if_pos rfl, List.foldl_cons, List.foldl_nil]
  rfl

theorem deleteEdits_bwd_same (c : BufferContent) (fl fc tc : Nat)
    (hfl : fl < c.length) (hfctc : fc ≤ tc) (htc : tc ≤ (c.getD fl []).length)
    (hnl : ∀ l ∈ c, nl ∉ l) :
    ((deleteEdits c ⟨⟨fl, fc⟩, ⟨fl, tc⟩⟩).reverse.map invertEdit).foldl applyEdit
      (contentDeleteRange c ⟨⟨fl, fc⟩, ⟨fl, tc⟩⟩) = c := by
  have hAfl : (c.take fl).length = fl := by
    rw [List.length_take]
    omega
  have hfcl : ((c.getD fl []).take fc).length = fc := by
    rw [List.length_take]
    omega
  unfold deleteEdits
  dsimp only
  rw [if_pos rfl]
  rw [List.reverse_cons, List.reverse_nil, List.nil_append, List.map_cons, List.map_nil,
    List.foldl_cons, List.foldl_nil]
  rw [contentDeleteRange_same, set_eq_shape c fl _ hfl]
  show (contentInsertText
    (c.take fl ++ ((c.getD fl []).take fc ++ (c.getD fl []).drop tc) :: c.drop (fl + 1))
    ⟨fl, fc⟩ (((c.getD fl []).take tc).drop fc)).1 = c
  have htxt : nl ∉ ((c.getD fl []).take tc).drop fc := fun hmem =>
    hnl _ (getD_mem_of_lt c _ [] hfl)
      (List.take_subset _ _ (List.drop_subset _ _ hmem))
  rw [contentInsertText_nonl _ _ _ htxt]
  dsimp only
  rw [shape_getD_at _ _ _ _ _ hAfl]
  unfold lineInsert
  rw [List.take_left' hfcl, List.drop_left' hfcl]
  have h1 : (c.getD fl []).take fc = ((c.getD fl []).take tc).take fc := by
    rw [List.take_take, Nat.min_eq_left hfctc]
  rw [h1, List.take_append_drop, List.take_append_drop]
  rw [shape_set_at _ _ _ _ _ hAfl]
  exact (shape_decomp c fl [] hfl).symm

theorem rustLines_tail_ne_nil (t : List Byte) (hcont : nl ∈ t)
    (hends : ¬ t.getLast? = some nl) : (rustLines t).tail ≠ [] := by
  have hM2 : 2 ≤ (rustLines t).length := by
    rw [rustLines, List.length_map]
    exact splitInclusiveNl_two t hcont hends
  intro hx
  have := congrArg List.length hx
  rw [List.length_tail] at this
  simp at this
  omega

theorem insert_range_from (c : BufferContent) (p : BufferPosition) (t : List Byte) :
    (contentInsertText c p t).2.fromPos = p := by
  by_cases hcont : nl ∈ t
  · by_cases hends : t.getLast? = some nl
    · rw [contentInsertText_nl_ends c p t hcont hends]
      dsimp only
      rw [between_eq _ _
        (Or.inl (show p.lineIndex < p.lineIndex + (rustLines t).tail.length + 1 by omega))]
    · rw [contentInsertText_nl_mid c p t hcont hends]
      dsimp only
      have hM := rustLines_tail_ne_nil t hcont hends
      have hMpos : 0 < (rustLines t).tail.length := List.length_pos.mpr hM
      rw [between_eq _ _
        (Or.inl (show p.lineIndex < p.lineIndex + (rustLines t).tail.length by omega))]
  · rw [contentInsertText_nonl c p t hcont]

theorem foldl_addEdit (E : List Edit) (G : List Edit) :
    E.foldl History.addEdit ⟨[], G, []⟩ = ⟨[], G ++ E, []⟩ := by
  induction E generalizing G with
  | nil => simp
  | cons e E ih =>
    rw [List.foldl_cons]
    show E.foldl History.addEdit ⟨[], G ++ [e], []⟩ = _
    rw [ih]
    simp

theorem saturate_bounds (c : BufferContent) (p : BufferPosition) (hne : c ≠ []) :
    (saturatePosition c p).lineIndex < c.length
      ∧ (saturatePosition c p).columnByteIndex
          ≤ (c.getD (saturatePosition c p).lineIndex []).length := by
  have hlen : 0 < c.length := List.length_pos.mpr hne
  unfold saturatePosition
  dsimp only
  refine ⟨by omega, ?_⟩
  exact Nat.min_le_right _ _

theorem op_ins_block (b : Buffer) (p : BufferPosition) (t : List Byte) (G : List Edit)
    (hh : b.hasHistory = true) (hist : b.history = ⟨[], G, []⟩)
    (hwf : contentWf b.content) :
    ∃ E, (applyOp b (.ins p t)).hasHistory = true
      ∧ (applyOp b (.ins p t)).history = ⟨[], G ++ E, []⟩
      ∧ (applyOp b (.ins p t)).content = E.foldl applyEdit b.content
      ∧ (E.reverse.map invertEdit).foldl applyEdit (applyOp b (.ins p t)).content
          = b.content
      ∧ contentWf (applyOp b (.ins p t)).content := by
  by_cases ht : t = []
  · have hred : applyOp b (.ins p t) = { b with searchRanges := [] } := by
      show (bufferInsertText b p t []).1 = _
      unfold bufferInsertText
      rw [if_pos ht]
    rw [hred]
    exact ⟨[], hh, by rw [List.append_nil]; exact hist, rfl, rfl, hwf⟩
  · have hred : applyOp b (.ins p t)
        = { b with
              searchRanges := [], needsSave := true,
              content := (contentInsertText b.content (saturatePosition b.content p) t).1,
              history := (if b.hasHistory then
                  b.history.addEdit
                    ⟨.insert,
                      (contentInsertText b.content (saturatePosition b.content p) t).2, t⟩
                else b.history) } := by
      show (bufferInsertText b p t []).1 = _
      unfold bufferInsertText
      rw [if_neg ht]
    rw [hred]
    have hbounds := saturate_bounds b.content p hwf.1
    refine ⟨[⟨.insert, (contentInsertText b.content (saturatePosition b.content p) t).2, t⟩],
      hh, ?_, ?_, ?_, ?_⟩
    · show (if b.hasHistory = true then
          b.history.addEdit
            ⟨.insert, (contentInsertText b.content (saturatePosition b.content p) t).2, t⟩
        else b.history) = _
      rw [hh, if_pos rfl, hist]
      rfl
    · show (contentInsertText b.content (saturatePosition b.content p) t).1
        = (contentInsertText b.content
            (contentInsertText b.content (saturatePosition b.content p) t).2.fromPos t).1
      rw [insert_range_from]
    · show contentDeleteRange
        (contentInsertText b.content (saturatePosition b.content p) t).1
        (contentInsertText b.content (saturatePosition b.content p) t).2 = b.content
      exact insert_delete_inv b.content (saturatePosition b.content p).lineIndex
        (saturatePosition b.content p).columnByteIndex t hwf hbounds.1 hbounds.2
    · exact contentWf_insert b.content _ t hwf hbounds.1

theorem deleteEdits_fwd (c : BufferContent) (f t : BufferPosition)
    (hft : BufferPosition.le f t) (htl : t.lineIndex < c.length)
    (hfc : f.columnByteIndex ≤ (c.getD f.lineIndex []).length) :
    (deleteEdits c ⟨f, t⟩).foldl applyEdit c = contentDeleteRange c ⟨f, t⟩ := by
  obtain ⟨fl, fc⟩ := f
  obtain ⟨tl, tc⟩ := t
  dsimp only at htl hfc
  rcases hft with hlt | ⟨heq, hcle⟩
  · exact deleteEdits_fwd_multi c fl fc tl tc htl hlt hfc
  · dsimp only at heq
    subst heq
    exact deleteEdits_fwd_same c fl fc tc

theorem deleteEdits_bwd (c : BufferContent) (f t : BufferPosition)
    (hft : BufferPosition.le f t) (htl : t.lineIndex < c.length)
    (hfc : f.columnByteIndex ≤ (c.getD f.lineIndex []).length)
    (htc : t.columnByteIndex ≤ (c.getD t.lineIndex []).length)
    (hnl : ∀ l ∈ c, nl ∉ l) :
    ((deleteEdits c ⟨f, t⟩).reverse.map invertEdit).foldl applyEdit
      (contentDeleteRange c ⟨f, t⟩) = c := by
  obtain ⟨fl, fc⟩ := f
  obtain ⟨tl, tc⟩ := t
  dsimp only at htl hfc htc
  rcases hft with hlt | ⟨heq, hcle⟩
  · exact deleteEdits_bwd_multi c fl fc tl tc htl hlt hfc hnl
  · dsimp only at heq hcle
    subst heq
    exact deleteEdits_bwd_same c fl fc tc htl hcle htc hnl

theorem op_del_block (b : Buffer) (r : BufferRange) (G : List Edit)
    (hh : b.hasHistory = true) (hist : b.history = ⟨[], G, []⟩)
    (hwf : contentWf b.content)
    (hle : BufferPosition.le (saturatePosition b.content r.fromPos)
      (saturatePosition b.content r.toPos)) :
    ∃ E, (applyOp b (.del r)).hasHistory = true
      ∧ (applyOp b (.del r)).history = ⟨[], G ++ E, []⟩
      ∧ (applyOp b (.del r)).content = E.foldl applyEdit b.content
      ∧ (E.reverse.map invertEdit).foldl applyEdit (applyOp b (.del r)).content
          = b.content
      ∧ contentWf (applyOp b (.del r)).content := by
  have hfb := saturate_bounds b.content r.fromPos hwf.1
  have htb := saturate_bounds b.content r.toPos hwf.1
  by_cases heq : saturatePosition b.content r.fromPos = saturatePosition b.content r.toPos
  · have hred : applyOp b (.del r) = { b with searchRanges := [] } := by
      show (bufferDeleteRange b r []).1 = _
      unfold bufferDeleteRange
      dsimp only
      rw [if_pos heq]
    rw [hred]
    exact ⟨[], hh, by rw [List.append_nil]; exact hist, rfl, rfl, hwf⟩
  · have hred : applyOp b (.del r)
        = { b with
              searchRanges := [], needsSave := true,
              content := contentDeleteRange b.content
                ⟨saturatePosition b.content r.fromPos, saturatePosition b.content r.toPos⟩,
              history := (if b.hasHistory then
                  (deleteEdits b.content
                      ⟨saturatePosition b.content r.fromPos,
                        saturatePosition b.content r.toPos⟩).foldl
                    History.addEdit b.history
                else b.history) } := by
      show (bufferDeleteRange b r []).1 = _
      unfold bufferDeleteRange
      dsimp only
      rw [if_neg heq]
    rw [hred]
    refine ⟨deleteEdits b.content
        ⟨saturatePosition b.content r.fromPos, saturatePosition b.content r.toPos⟩,
      hh, ?_, ?_, ?_, ?_⟩
    · show (if b.hasHistory = true then _ else _) = _
      rw [hh, if_pos rfl, hist, foldl_addEdit]
    · show contentDeleteRange b.content _ = _
      exact (deleteEdits_fwd b.content _ _ hle htb.1 hfb.2).symm
    · show ((deleteEdits b.content
            ⟨saturatePosition b.content r.fromPos,
              saturatePosition b.content r.toPos⟩).reverse.map invertEdit).foldl applyEdit
          (contentDeleteRange b.content
            ⟨saturatePosition b.content r.fromPos, saturatePosition b.content r.toPos⟩)
        = b.content
      exact deleteEdits_bwd b.content _ _ hle htb.1 hfb.2 htb.2 hwf.2
    · show contentWf (contentDeleteRange b.content _)
      have hfl : (saturatePosition b.content r.fromPos).lineIndex < b.content.length :=
        hfb.1
      exact contentWf_delete b.content _ hwf hfl htb.1 hle

theorem session_inv (c0 : BufferContent) (ops : List BufOp) :
    ∀ (b : Buffer) (G : List Edit),
      b.hasHistory = true → b.history = ⟨[], G, []⟩ → contentWf b.content →
      G.foldl applyEdit c0 = b.content →
      (G.reverse.map invertEdit).foldl applyEdit b.content = c0 →
      validOps b ops →
      ∃ G2, (ops.foldl applyOp b).hasHistory = true
        ∧ (ops.foldl applyOp b).history = ⟨[], G ++ G2, []⟩
        ∧ contentWf (ops.foldl applyOp b).content
        ∧ (G ++ G2).foldl applyEdit c0 = (ops.foldl applyOp b).content
        ∧ ((G ++ G2).reverse.map invertEdit).foldl applyEdit
            (ops.foldl applyOp b).content = c0 := by
  induction ops with
  | nil =>
    intro b G hh hist hwf hfwd hbwd _
    exact ⟨[], by simpa using hh, by rw [List.append_nil]; simpa using hist,
      by simpa using hwf, by rw [List.append_nil]; simpa using hfwd,
      by rw [List.append_nil]; simpa using hbwd⟩
  | cons op rest ih =>
    intro b G hh hist hwf hfwd hbwd hv
    rw [List.foldl_cons]
    cases op with
    | ins p t =>
      obtain ⟨E, hh1, hist1, hcontent1, hbwd1, hwf1⟩ := op_ins_block b p t G hh hist hwf
      have hv1 : validOps (applyOp b (.ins p t)) rest := hv
      have hfwd1 : (G ++ E).foldl applyEdit c0 = (applyOp b (.ins p t)).content := by
        rw [List.foldl_append, hfwd]
        exact hcontent1.symm
      have hbwd1' : ((G ++ E).reverse.map invertEdit).foldl applyEdit
          (applyOp b (.ins p t)).content = c0 := by
        rw [List.reverse_append, List.map_append, List.foldl_append, hbwd1]
        exact hbwd
      obtain ⟨G2, h1, h2, h3, h4, h5⟩ :=
        ih (applyOp b (.ins p t)) (G ++ E) hh1 hist1 hwf1 hfwd1 hbwd1' hv1
      exact ⟨E ++ G2, h1, by rw [← List.append_assoc]; exact h2, h3,
        by rw [← List.append_assoc]; exact h4,
        by rw [← List.append_assoc]; exact h5⟩
    | del r =>
      obtain ⟨hle, hv1⟩ := hv
      obtain ⟨E, hh1, hist1, hcontent1, hbwd1, hwf1⟩ :=
        op_del_block b r G hh hist hwf hle
      have hfwd1 : (G ++ E).foldl applyEdit c0 = (applyOp b (.del r)).content := by
        rw [List.foldl_append, hfwd]
        exact hcontent1.symm
      have hbwd1' : ((G ++ E).reverse.map invertEdit).foldl applyEdit
          (applyOp b (.del r)).content = c0 := by
        rw [List.reverse_append, List.map_append, List.foldl_append, hbwd1]
        exact hbwd
      obtain ⟨G2, h1, h2, h3, h4, h5⟩ :=
        ih (applyOp b (.del r)) (G ++ E) hh1 hist1 hwf1 hfwd1 hbwd1' hv1
      exact ⟨E ++ G2, h1, by rw [← List.append_assoc]; exact h2, h3,
        by rw [← List.append_assoc]; exact h4,
        by rw [← List.append_assoc]; exact h5⟩

theorem bufferUndo_content (b : Buffer) (events : List BufEvent) :
    (bufferUndo b events).1.content
      = (b.history.undoEdits).2.foldl applyEdit b.content := rfl

theorem bufferUndo_history (b : Buffer) (events : List BufEvent) :
    (bufferUndo b events).1.history = (b.history.undoEdits).1 := rfl

theorem bufferRedo_content (b : Buffer) (events : List BufEvent) :
    (bufferRedo b events).1.content
      = (b.history.redoEdits).2.foldl applyEdit b.content := rfl

theorem undoEdits_empty : History.undoEdits ⟨[], [], []⟩ = (⟨[], [], []⟩, []) := rfl

theorem undoEdits_committed (g : List Edit) :
    History.undoEdits ⟨[g], [], []⟩ = (⟨[], [], [g]⟩, g.reverse.map invertEdit) := rfl

theorem redoEdits_empty : History.redoEdits ⟨[], [], []⟩ = (⟨[], [], []⟩, []) := rfl

theorem redoEdits_one (g : List Edit) :
    History.redoEdits ⟨[], [], [g]⟩ = (⟨[g], [], []⟩, g) := rfl

/-! ## Theorems -/


/-- C1: the spec promises that after a mutation guard releases, no two
cursors' ranges overlap or touch.  The code violates this: adding the cursors
(0,0)-(0,2), (0,1)-(0,5) and (0,3)-(0,4) through the guard leaves the
collection holding (0,0)-(0,5) and (0,3)-(0,4), whose ranges overlap — the
inner merge scan of `sort_and_merge` walks `j` downward and checks against a
range that only grows afterwards, so a cursor engulfed by a later merge
survives.  This theorem evaluates the embedded code at that failing input. -/
theorem c1_sort_merge_overlap_eval :
    (guardDrop (guardAdd (guardAdd (guardAdd (guardClear CursorCollection.new)
        ⟨⟨0, 0⟩, ⟨0, 2⟩⟩) ⟨⟨0, 1⟩, ⟨0, 5⟩⟩) ⟨⟨0, 3⟩, ⟨0, 4⟩⟩)).cursors
      = [⟨⟨0, 0⟩, ⟨0, 5⟩⟩, ⟨⟨0, 3⟩, ⟨0, 4⟩⟩]
    ∧ rangesTouchOrOverlap (Cursor.toRange ⟨⟨0, 0⟩, ⟨0, 5⟩⟩)
        (Cursor.toRange ⟨⟨0, 3⟩, ⟨0, 4⟩⟩) := by
  decide


/-- C2 counterexample: the claim says a text ending in `"\n"` round-trips to
itself; but inserting `"\n"` into a fresh buffer leaves two empty lines, and
serialization yields `"\n\n"`. -/
theorem c2_counterexample :
    ([10] : List Byte).getLast? = some nl
      ∧ contentWrite (contentInsertText contentNew ⟨0, 0⟩ [10]).1 ≠ [10] := by
  decide

/-- C2 (amended): for every text `T` with no `"\r\n"` occurrence, inserting
`T` at (0,0) of a fresh buffer and serializing (each line followed by `"\n"`)
yields `T ++ "\n"` — also when `T` already ends with `"\n"`, because the
fresh buffer's single empty line survives as a trailing empty line. -/
theorem c2_insert_roundtrip (t : List Byte) (h : noCrLf t) :
    contentWrite (contentInsertText contentNew ⟨0, 0⟩ t).1 = t ++ [nl] := by
  by_cases hcontains : t.contains nl
  · have htne : t ≠ [] := by
      intro hcon; subst hcon; simp at hcontains
    obtain ⟨p0, pt, hps⟩ : ∃ p0 pt, rustLines t = p0 :: pt := by
      cases hq : rustLines t with
      | nil =>
        exfalso
        have := splitInclusiveNl_ne_nil t htne
        unfold rustLines at hq
        cases hs : splitInclusiveNl t with
        | nil => exact this hs
        | cons a as => rw [hs] at hq; simp at hq
      | cons p0 pt => exact ⟨p0, pt, rfl⟩
    have hmem : nl ∈ t := by simpa using hcontains
    by_cases hend : t.getLast? = some nl
    · have hcontent : (contentInsertText contentNew ⟨0, 0⟩ t).1 = rustLines t ++ [[]] := by
        simp [contentInsertText, hcontains, contentNew, hend, hps, hmem]
      rw [hcontent, contentWrite]
      have := rustLines_flatten t ((noCrLf_chain t).mp h)
      rw [if_pos hend] at this
      simp only [List.map_append, List.flatten_append]
      rw [this]
      simp
    · have hcontent : (contentInsertText contentNew ⟨0, 0⟩ t).1 = rustLines t := by
        have hcond : ¬ (¬ t.contains nl = true) := fun hx => hx hcontains
        simp only [contentInsertText, contentNew]
        rw [if_neg hcond, if_neg hend]
        simp only [hps, List.headD_cons, List.tail_cons, List.take_nil, List.nil_append,
          List.take_zero, List.drop_zero, List.getD, List.get?, Option.getD_some,
          List.drop_succ_cons, List.drop_nil, List.append_nil]
        rw [getLastD_cons_eq p0 pt []]
        simp [List.dropLast_append_getLast (List.cons_ne_nil p0 pt)]
      rw [hcontent, contentWrite]
      have := rustLines_flatten t ((noCrLf_chain t).mp h)
      rw [if_neg hend, if_neg htne] at this
      exact this
  · have hmem : ¬ nl ∈ t := by simpa using hcontains
    have hcontent : (contentInsertText contentNew ⟨0, 0⟩ t).1 = [t] := by
      simp [contentInsertText, hcontains, contentNew, lineInsert, hmem]
    rw [hcontent, contentWrite]
    simp

/-- C2 witness: the amended round trip at the concrete text `"a\nb"`. -/
theorem c2_insert_roundtrip_witness :
    noCrLf [97, 10, 98]
      ∧ contentWrite (contentInsertText contentNew ⟨0, 0⟩ [97, 10, 98]).1
        = [97, 10, 98] ++ [nl] :=
  ⟨by decide, c2_insert_roundtrip [97, 10, 98] (by decide)⟩


theorem c4_aux_f : ∀ m : Fin 100, parseKey (keyFormat (.f m.val)) = .ok (.f m.val, []) := by
  decide

theorem c4_char_case (c : Nat) (h60 : c ≠ 60) (h62 : c ≠ 62) :
    parseKey [c] = .ok (.char c, []) := by
  have hred : parseKey [c]
      = if c = 60 then Except.error KeyParseError.unexpectedEnd
        else if c = 62 then Except.error (KeyParseError.invalidCharacter 62)
        else Except.ok (Key.char c, []) := rfl
  rw [hred, if_neg h60, if_neg h62]

theorem c4_ctrl_case (c : Nat) (hk : isAsciiAlphanumeric c) :
    parseKey (keyFormat (.ctrl c)) = .ok (.ctrl c, []) := by
  have hfmt : keyFormat (.ctrl c) = [60, 99, 45, c, 62] := rfl
  have hred : parseKey [60, 99, 45, c, 62]
      = if isAsciiAlphanumeric c then Except.ok (Key.ctrl c, ([] : List Nat))
        else Except.error (KeyParseError.invalidCharacter c) := rfl
  rw [hfmt, hred, if_pos hk]

theorem c4_alt_case (c : Nat) (hk : isAsciiAlphanumeric c) :
    parseKey (keyFormat (.alt c)) = .ok (.alt c, []) := by
  have hfmt : keyFormat (.alt c) = [60, 97, 45, c, 62] := rfl
  have hred : parseKey [60, 97, 45, c, 62]
      = if isAsciiAlphanumeric c then Except.ok (Key.alt c, ([] : List Nat))
        else Except.error (KeyParseError.invalidCharacter c) := rfl
  rw [hfmt, hred, if_pos hk]

/-- C4 counterexample: `Key::None` formats to the empty string, and parsing
the empty string fails with `UnexpectedEnd` instead of yielding the key back. -/
theorem c4_counterexample : parseKey (keyFormat Key.none) ≠ .ok (Key.none, []) := by
  decide

/-- C4 (amended): every key except `None`, `F(n)` with `n ≥ 100` and
`Ctrl`/`Alt` of a non-alphanumeric character parses back from its textual
form; and `F(n)` for `1 ≤ n ≤ 99` formats to `<fN>` with `N` in decimal. -/
theorem c4_key_roundtrip :
    (∀ k : Key, roundTrippable k → parseKey (keyFormat k) = .ok (k, []))
      ∧ ∀ n : Fin 100, 1 ≤ n.val →
        keyFormat (.f n.val) = s2b ("<f" ++ toString n.val ++ ">") := by
  constructor
  · intro k hk
    cases k with
    | none => simp [roundTrippable] at hk
    | f n => exact c4_aux_f ⟨n, hk⟩
    | char c =>
      by_cases h32 : c = 32
      · subst h32; decide
      · by_cases h60 : c = 60
        · subst h60; decide
        · by_cases h62 : c = 62
          · subst h62; decide
          · have e1 : ch ' ' = 32 := rfl
            have e2 : ch '<' = 60 := rfl
            have e3 : ch '>' = 62 := rfl
            have hfmt : keyFormat (.char c) = [c] := by
              simp [keyFormat, e1, e2, e3, h32, h60, h62]
            rw [hfmt]
            exact c4_char_case c h60 h62
    | ctrl c => exact c4_ctrl_case c hk
    | alt c => exact c4_alt_case c hk
    | backspace => decide
    | enter => decide
    | left => decide
    | right => decide
    | up => decide
    | down => decide
    | home => decide
    | endKey => decide
    | pageUp => decide
    | pageDown => decide
    | tab => decide
    | delete => decide
    | esc => decide
  · decide

/-- C4 witness: the amended round trip at `Ctrl('a')` and the `<f12>` format. -/
theorem c4_key_roundtrip_witness :
    roundTrippable (Key.ctrl 97)
      ∧ parseKey (keyFormat (Key.ctrl 97)) = .ok (Key.ctrl 97, [])
      ∧ 1 ≤ (12 : Fin 100).val
      ∧ keyFormat (.f (12 : Fin 100).val) = s2b ("<f" ++ toString (12 : Fin 100).val ++ ">") :=
  ⟨by decide, c4_key_roundtrip.1 (Key.ctrl 97) (by decide),
    by decide, c4_key_roundtrip.2 12 (by decide)⟩


/-- C6: every `BufferContent` operation — `insert_text`, `delete_range`,
`clear`, `read`, and the (`&self`, hence non-mutating) word/search queries —
preserves the invariants that the buffer holds at least one line and that no
line's text contains a newline byte, given in-range coordinates (out-of-range
ones panic in Rust). -/
theorem c6_content_invariants (c : BufferContent) (op : ContentOp)
    (hwf : contentWf c) (hvalid : contentOpValid c op) :
    contentWf (applyContentOp c op) := by
  cases op with
  | insertOp p t => exact contentWf_insert c p t hwf hvalid
  | deleteOp r => exact contentWf_delete c r hwf hvalid.1 hvalid.2.1 hvalid.2.2
  | clearOp => exact contentWf_clear c
  | readOp input => exact contentWf_read input
  | queryOp => exact hwf

/-- C6 witness: a concrete multi-line deletion keeps the invariants. -/
theorem c6_content_invariants_witness :
    contentWf [[97, 97], [98], [99, 99]]
      ∧ contentOpValid [[97, 97], [98], [99, 99]] (.deleteOp ⟨⟨0, 1⟩, ⟨2, 1⟩⟩)
      ∧ contentWf (applyContentOp [[97, 97], [98], [99, 99]] (.deleteOp ⟨⟨0, 1⟩, ⟨2, 1⟩⟩)) :=
  ⟨by decide, by decide,
    c6_content_invariants [[97, 97], [98], [99, 99]] (.deleteOp ⟨⟨0, 1⟩, ⟨2, 1⟩⟩)
      (by decide) (by decide)⟩

/-- C7 counterexample: the claim says `Buffer::insert_text` with empty text
performs no mutation, `search_ranges` included; but the code clears
`search_ranges` before the empty-text early return, so a buffer with a
nonempty search cache is mutated. -/
theorem c7_counterexample :
    (bufferInsertText
        ⟨[[97]], History.new, [⟨⟨0, 0⟩, ⟨0, 1⟩⟩], false, true⟩ ⟨0, 0⟩ [] []).1
      ≠ ⟨[[97]], History.new, [⟨⟨0, 0⟩, ⟨0, 1⟩⟩], false, true⟩ := by
  decide

/-- C7 (amended): `Buffer::insert_text` with empty text returns an empty range
at the saturated position and leaves content, history, `needs_save` and the
event queue untouched — but it does clear `search_ranges`. -/
theorem c7_empty_insert_frame (b : Buffer) (pos : BufferPosition)
    (events : List BufEvent) :
    bufferInsertText b pos [] events
      = ({ b with searchRanges := [] }, events,
          BufferRange.between (saturatePosition b.content pos)
            (saturatePosition b.content pos)) := by
  rfl

/-- C8 counterexample: the claim says undecodable pending bytes are discarded;
feeding the invalid discriminant byte `255` and finishing retains it in the
per-connection buffer instead. -/
theorem c8_counterexample :
    deserClientEvent [255] = .error .invalidData
      ∧ (feedChunk [] [255]).2 = [255] := by
  decide

/-- C8 (amended): a deserialize error on the buffered bytes merely ends that
batch's iteration — the receiver yields no event and `finish` retains the
pending bytes unchanged for the next batch; nothing distinguishes the error
from a mere end of data, so no connection close results from this path. -/
theorem c8_error_retains (buf : List Byte) (err : DeserializeError)
    (h : deserClientEvent buf = .error err) :
    drainEvents (buf.length + 1) buf = ([], buf) := by
  cases buf with
  | nil => rfl
  | cons b rest => simp [drainEvents, h]

/-- C8 witness: the amended behaviour at the concrete junk byte. -/
theorem c8_error_retains_witness :
    drainEvents 2 [255] = ([], [255]) :=
  c8_error_retains [255] .invalidData (by decide)

theorem quietRun_infinite (b : Bool) (n : Nat) :
    quietRun ⟨.infinite, b⟩ n = (⟨.infinite, b⟩, 0) := by
  induction n with
  | zero => rfl
  | succ n ih => simp [quietRun, quietStep, ih]

/-- C9: starting a quiet period with the idle timer armed, any number of quiet
loop iterations produces exactly one synthetic `Idle` platform event; the
timeout then stays infinite (no further `Idle`) until readiness rearms it. -/
theorem c9_idle_once (redraw : Bool) (n : Nat) (h : 1 ≤ n) :
    (quietRun ⟨.idleArmed, redraw⟩ n).2 = 1 := by
  cases n with
  | zero => omega
  | succ n => simp [quietRun, quietStep, quietRun_infinite]

/-- C9 witness: five quiet iterations from the armed state yield one idle. -/
theorem c9_idle_once_witness : (quietRun ⟨.idleArmed, false⟩ 5).2 = 1 :=
  c9_idle_once false 5 (by decide)

/-- C10: `add` on a collection already holding 255 cursors (the fixed
capacity) is a total silent no-op — the collection, its length and the main
cursor index are all unchanged. -/
theorem c10_add_at_capacity (col : CursorCollection) (c : Cursor)
    (h : col.cursors.length = CursorCollection.capacity) :
    guardAdd col c = col := by
  unfold guardAdd
  simp [h]

/-- C10 witness: adding to a concrete full collection changes nothing. -/
theorem c10_add_at_capacity_witness :
    (List.replicate 255 Cursor.zero).length = CursorCollection.capacity
      ∧ guardAdd ⟨List.replicate 255 Cursor.zero, 0⟩ Cursor.zero
        = ⟨List.replicate 255 Cursor.zero, 0⟩ :=
  ⟨by rw [List.length_replicate]; rfl, c10_add_at_capacity _ _ (by rw [List.length_replicate]; rfl)⟩

/-- C5: serializing any list of (machine-representable) client events into one
byte stream and feeding that stream to the receiver in arbitrary consecutive
chunks yields exactly the original events in order, with an empty
per-connection buffer at the end. -/
theorem c5_fragmentation (es : List ClientEvent) (chunks : List (List Byte))
    (hwf : ∀ e ∈ es, eventWf e)
    (hchunks : chunks.flatten = (es.map serClientEvent).flatten) :
    processChunks chunks = (es, []) := by
  have h := processChunks_fold chunks [] es [] hwf (by simpa using hchunks) (Or.inl rfl)
  simpa [processChunks] using h

theorem c5_fragmentation_witness :
    (∀ e ∈ [ClientEvent.resize 3 4, ClientEvent.key TargetClient.focused Key.enter],
      eventWf e) ∧
    [[1, 3, 0], [4, 0, 0], [1, 2]].flatten
      = ([ClientEvent.resize 3 4,
          ClientEvent.key TargetClient.focused Key.enter].map serClientEvent).flatten ∧
    processChunks [[1, 3, 0], [4, 0, 0], [1, 2]]
      = ([ClientEvent.resize 3 4, ClientEvent.key TargetClient.focused Key.enter], []) :=
  ⟨by decide, by decide,
    c5_fragmentation
      [ClientEvent.resize 3 4, ClientEvent.key TargetClient.focused Key.enter]
      [[1, 3, 0], [4, 0, 0], [1, 2]] (by decide) (by decide)⟩

/-- C3: starting from a buffer with history enabled and a fresh (empty) history,
any valid sequence of `insert_text`/`delete_range` calls terminated by
`commit_edits` is rolled back byte-for-byte by `undo`, and a subsequent `redo`
restores the edited content byte-for-byte. -/
theorem c3_undo_redo (b0 : Buffer) (ops : List BufOp)
    (hh : b0.hasHistory = true) (hhist : b0.history = History.new)
    (hwf : contentWf b0.content) (hv : validOps b0 ops) :
    (bufferUndo (bufferCommitEdits (ops.foldl applyOp b0)) []).1.content = b0.content
      ∧ (bufferRedo (bufferUndo (bufferCommitEdits (ops.foldl applyOp b0)) []).1 []).1.content
        = (bufferCommitEdits (ops.foldl applyOp b0)).content := by
  obtain ⟨G2, h1, h2, h3, h4, h5⟩ :=
    session_inv b0.content ops b0 [] hh (by rw [hhist]; rfl) hwf rfl rfl hv
  rw [List.nil_append] at h2 h4 h5
  have hcc : (bufferCommitEdits (ops.foldl applyOp b0)).content
      = (ops.foldl applyOp b0).content := rfl
  by_cases hG2 : G2 = []
  · subst hG2
    have hbchist : (bufferCommitEdits (ops.foldl applyOp b0)).history = ⟨[], [], []⟩ := by
      show (ops.foldl applyOp b0).history.commitEdits = _
      rw [h2]
      rfl
    have hundo : (bufferUndo (bufferCommitEdits (ops.foldl applyOp b0)) []).1.content
        = b0.content := by
      rw [bufferUndo_content, hbchist, undoEdits_empty, hcc]
      exact h4.symm
    have hundo_hist :
        (bufferUndo (bufferCommitEdits (ops.foldl applyOp b0)) []).1.history
          = ⟨[], [], []⟩ := by
      rw [bufferUndo_history, hbchist, undoEdits_empty]
    refine ⟨hundo, ?_⟩
    rw [bufferRedo_content, hundo_hist, redoEdits_empty, hundo, hcc]
    exact h4
  · have hbchist : (bufferCommitEdits (ops.foldl applyOp b0)).history
        = ⟨[G2], [], []⟩ := by
      show (ops.foldl applyOp b0).history.commitEdits = _
      rw [h2]
      unfold History.commitEdits
      dsimp only
      rw [if_neg hG2]
      rfl
    have hundo : (bufferUndo (bufferCommitEdits (ops.foldl applyOp b0)) []).1.content
        = b0.content := by
      rw [bufferUndo_content, hbchist, undoEdits_committed, hcc]
      exact h5
    have hundo_hist :
        (bufferUndo (bufferCommitEdits (ops.foldl applyOp b0)) []).1.history
          = ⟨[], [], [G2]⟩ := by
      rw [bufferUndo_history, hbchist, undoEdits_committed]
    refine ⟨hundo, ?_⟩
    rw [bufferRedo_content, hundo_hist, redoEdits_one, hundo, hcc]
    exact h4

/-- C3 witness: a concrete two-operation session (a multi-line insert followed by
a multi-line delete) on the buffer `"ab"`, with every hypothesis decided. -/
theorem c3_undo_redo_witness :
    ((⟨[[97, 98]], History.new, [], false, true⟩ : Buffer).hasHistory = true
      ∧ (⟨[[97, 98]], History.new, [], false, true⟩ : Buffer).history = History.new
      ∧ contentWf (⟨[[97, 98]], History.new, [], false, true⟩ : Buffer).content
      ∧ validOps ⟨[[97, 98]], History.new, [], false, true⟩
          [.ins ⟨0, 1⟩ [99, 10, 100], .del ⟨⟨0, 0⟩, ⟨1, 1⟩⟩])
    ∧ (bufferUndo (bufferCommitEdits
          (([.ins ⟨0, 1⟩ [99, 10, 100], .del ⟨⟨0, 0⟩, ⟨1, 1⟩⟩] : List BufOp).foldl applyOp
            ⟨[[97, 98]], History.new, [], false, true⟩)) []).1.content
        = (⟨[[97, 98]], History.new, [], false, true⟩ : Buffer).content
    ∧ (bufferRedo (bufferUndo (bufferCommitEdits
          (([.ins ⟨0, 1⟩ [99, 10, 100], .del ⟨⟨0, 0⟩, ⟨1, 1⟩⟩] : List BufOp).foldl applyOp
            ⟨[[97, 98]], History.new, [], false, true⟩)) []).1 []).1.content
        = (bufferCommitEdits
            (([.ins ⟨0, 1⟩ [99, 10, 100], .del ⟨⟨0, 0⟩, ⟨1, 1⟩⟩] : List BufOp).foldl applyOp
              ⟨[[97, 98]], History.new, [], false, true⟩)).content := by
  refine ⟨⟨rfl, rfl, by decide, by decide⟩, ?_, ?_⟩
  · exact (c3_undo_redo ⟨[[97, 98]], History.new, [], false, true⟩
      [.ins ⟨0, 1⟩ [99, 10, 100], .del ⟨⟨0, 0⟩, ⟨1, 1⟩⟩] rfl rfl (by decide) (by decide)).1
  · exact (c3_undo_redo ⟨[[97, 98]], History.new, [], false, true⟩
      [.ins ⟨0, 1⟩ [99, 10, 100], .del ⟨⟨0, 0⟩, ⟨1, 1⟩⟩] rfl rfl (by decide) (by decide)).2

end Pepper
